import Mathlib

/-
Verification of the Bellman-Ford core of `src/belman.py`.

Shallow embedding notes:
* Node identifiers are an arbitrary type `V` with decidable equality
  (the program uses strings; the spec calls them opaque identifiers).
* Edge weights and distances are rationals; the spec explicitly allows an
  exact arbitrary-precision numeric type in place of Python floats.
* The Python value `float("inf")` used as the distance of unvisited nodes is
  modelled as `none : Option ℚ`; `dAdd` and `dLt` reproduce the float
  semantics `inf + w = inf`, `inf < inf = False`, `finite < inf = True`
  for the only expressions the program evaluates.
* The `networkx.DiGraph` built by `read_graph_from_excel` is external
  library code: it is modelled from its documented behaviour (a simple
  directed graph; adding an edge that already exists updates its weight;
  endpoints are inserted into the node set).  Edge iteration order is
  unspecified by the spec (§4.1) and the verified properties are
  independent of it; the model iterates edges in insertion order.
* Python dicts are modelled as total functions; the keys actually present
  (`graph.nodes`, plus the inserted `source` key for `distances`) are
  tracked by the theorems where they matter.
-/

set_option linter.unusedSectionVars false

namespace Belman

variable {V : Type} [DecidableEq V]

/-- The directed weighted graph: node set and edge set, in insertion order.
Models the `nx.DiGraph` instance built by `read_graph_from_excel`. -/
structure Graph (V : Type) where
  nodes : List V
  edges : List (V × V × ℚ)

/-- Insert a node if it is not already present (networkx `add_edge` inserts
unknown endpoints into the node set). -/
def addNode (g : Graph V) (n : V) : Graph V :=
  if n ∈ g.nodes then g else { g with nodes := g.nodes ++ [n] }

/-- `graph.add_edge(u, v, weight=w)` on a `networkx.DiGraph`: inserts the
endpoints, then adds the directed edge `u → v` with weight `w`; if the edge
already exists its weight is updated in place (DiGraph is a simple digraph,
it never holds two parallel edges for one ordered pair). -/
def Graph.add_edge (g : Graph V) (u v : V) (w : ℚ) : Graph V :=
  let g1 := addNode (addNode g u) v
  if g1.edges.any (fun e => decide (e.1 = u ∧ e.2.1 = v)) then
    { g1 with edges := g1.edges.map (fun e => if e.1 = u ∧ e.2.1 = v then (u, v, w) else e) }
  else
    { g1 with edges := g1.edges ++ [(u, v, w)] }

/-- `read_graph_from_excel` (src/belman.py:57-72), restricted to its
graph-building loop: each tabular row `(Source, Target, Weight)` yields one
`add_edge` call on an initially empty `DiGraph`.  File I/O and the
required-columns check happen before any row reaches the graph and are out
of scope per the spec. -/
def read_graph_from_excel (rows : List (V × V × ℚ)) : Graph V :=
  rows.foldl (fun g r => g.add_edge r.1 r.2.1 r.2.2) ⟨[], []⟩

/-- `distances[u] + weight` where `distances[u]` may be `float("inf")`. -/
def dAdd : Option ℚ → ℚ → Option ℚ
  | none, _ => none
  | some a, w => some (a + w)

/-- The strict comparison `x < y` on distances, `none` playing `inf`. -/
def dLt : Option ℚ → Option ℚ → Bool
  | none, _ => false
  | some _, none => true
  | some a, some b => decide (a < b)

/-- Specification-side order on extended distances (`none` is `+∞`). -/
def dLe : Option ℚ → Option ℚ → Prop
  | _, none => True
  | none, some _ => False
  | some a, some b => a ≤ b

instance : ∀ x y : Option ℚ, Decidable (dLe x y)
  | none, none => .isTrue trivial
  | some _, none => .isTrue trivial
  | none, some _ => .isFalse (fun h => h)
  | some a, some b => inferInstanceAs (Decidable (a ≤ b))

/-- The mutable state of `bellman_ford`: the `distances` and `predecessors`
dictionaries (src/belman.py:110-111), as total maps. -/
structure BFState (V : Type) where
  dist : V → Option ℚ
  pred : V → Option V

/-- One iteration of the inner relaxation loop body (src/belman.py:116-120):
`if distances[u] + weight < distances[v]: distances[v] = ...; predecessors[v] = u`. -/
def relaxEdge (s : BFState V) (e : V × V × ℚ) : BFState V :=
  if dLt (dAdd (s.dist e.1) e.2.2) (s.dist e.2.1) then
    { dist := Function.update s.dist e.2.1 (dAdd (s.dist e.1) e.2.2),
      pred := Function.update s.pred e.2.1 (some e.1) }
  else s

/-- One full pass over all edges (the body of the `for _ in range(...)` loop). -/
def relaxRound (g : Graph V) (s : BFState V) : BFState V :=
  g.edges.foldl relaxEdge s

/-- Initial state: every node at `inf`, no predecessors, then
`distances[source] = 0` (a plain dict write: it inserts the key even when
`source` is not a graph node). -/
def initState (source : V) : BFState V :=
  { dist := fun n => if n = source then some 0 else none,
    pred := fun _ => none }

/-- The state after the `len(graph.nodes) - 1` relaxation rounds. -/
def runRelax (g : Graph V) (source : V) : BFState V :=
  (relaxRound g)^[g.nodes.length - 1] (initState source)

/-- The negative-cycle verification pass (src/belman.py:122-126): does some
edge still admit an improvement? -/
def improveCheck (g : Graph V) (s : BFState V) : Bool :=
  g.edges.any (fun e => dLt (dAdd (s.dist e.1) e.2.2) (s.dist e.2.1))

/-- The predecessor walk of the path-reconstruction loop
(src/belman.py:131-135): `while current is not None: path.insert(0, current);
current = predecessors[current]`.  The source loop is unbounded; the
embedding is fuel-indexed, `none` marking fuel exhaustion (divergence).
`c :: acc` is `path.insert(0, current)`. -/
def walk (p : V → Option V) : Nat → Option V → List V → Option (List V)
  | 0, none, acc => some acc
  | 0, some _, _ => none
  | _ + 1, none, acc => some acc
  | fuel + 1, some c, acc => walk p fuel (p c) (c :: acc)

/-- Iterating the predecessor map: the sequence of values taken by `current`. -/
def predIter (p : V → Option V) : Nat → Option V → Option V
  | 0, o => o
  | k + 1, o =>
    match o with
    | none => none
    | some c => predIter p k (p c)

/-- The `paths` dictionary built by the reconstruction loop
(src/belman.py:128-137): a node is a key (value `some path`) exactly when
it is a graph node with a finite distance; its path is the predecessor
walk.  The walk fuel `g.nodes.length + 1` is justified by the termination
results below (`pred_iter_terminates`, `walk_succeeds`): whenever the cycle
check passes, every predecessor walk reaches `None` within
`g.nodes.length` steps, so the fuel never runs out on any path the
function actually returns. -/
def bfPaths (g : Graph V) (source : V) : V → Option (List V) := fun n =>
  if n ∈ g.nodes ∧ (runRelax g source).dist n ≠ none then
    walk (runRelax g source).pred (g.nodes.length + 1) (some n) []
  else none

/-- `bellman_ford` (src/belman.py:108-139).  Raising
`ValueError("Graph contains a negative weight cycle!")` is modelled as
`Except.error` with that message.  The returned pair is the `distances`
dict and the `paths` dict. -/
def bellman_ford (g : Graph V) (source : V) :
    Except String ((V → Option ℚ) × (V → Option (List V))) :=
  if improveCheck g (runRelax g source) then
    Except.error "Graph contains a negative weight cycle!"
  else
    Except.ok ((runRelax g source).dist, bfPaths g source)

/-- `chain u es v`: the edge list `es` forms a contiguous walk from `u`
to `v` (each edge starts where the previous one ended). -/
def chain : V → List (V × V × ℚ) → V → Prop
  | u, [], v => u = v
  | u, e :: es, v => e.1 = u ∧ chain e.2.1 es v

instance chainDec : ∀ (u : V) (es : List (V × V × ℚ)) (v : V), Decidable (chain u es v)
  | u, [], v => decEq u v
  | u, e :: es, v => @instDecidableAnd _ _ (decEq e.1 u) (chainDec e.2.1 es v)

/-- A walk from `u` to `v` in `g`, given by the list of edges it crosses. -/
def IsWalk (g : Graph V) (u v : V) (es : List (V × V × ℚ)) : Prop :=
  (∀ e ∈ es, e ∈ g.edges) ∧ chain u es v

instance (g : Graph V) (u v : V) (es : List (V × V × ℚ)) : Decidable (IsWalk g u v es) := by
  unfold IsWalk; infer_instance

/-- Total edge weight of a walk. -/
def walkWeight (es : List (V × V × ℚ)) : ℚ :=
  (es.map (fun e => e.2.2)).sum

/-- A negative-weight cycle (closed walk of negative total weight) at a node
reachable from `source`. -/
def HasNegCycleFrom (g : Graph V) (source : V) : Prop :=
  ∃ x es1 es2, IsWalk g source x es1 ∧ IsWalk g x x es2 ∧ es2 ≠ [] ∧ walkWeight es2 < 0

/-- A negative-weight cycle anywhere in the graph. -/
def HasNegCycle (g : Graph V) : Prop :=
  ∃ x es, IsWalk g x x es ∧ es ≠ [] ∧ walkWeight es < 0

/-- The weight attached to the ordered pair `(u, v)`, as a `DiGraph` stores it. -/
def edgeWeight (g : Graph V) (u v : V) : Option ℚ :=
  (g.edges.find? (fun e => decide (e.1 = u ∧ e.2.1 = v))).map (fun e => e.2.2)

/-- The weight of the last tabular row for the ordered pair `(u, v)`. -/
def lastWeight (rows : List (V × V × ℚ)) (u v : V) : Option ℚ :=
  ((rows.filter (fun r => decide (r.1 = u ∧ r.2.1 = v))).getLast?).map (fun r => r.2.2)

/-- Well-formedness of a graph value, satisfied by every `DiGraph` the
loader can build: distinct nodes, edge endpoints in the node set, and at
most one edge per ordered pair. -/
def WF (g : Graph V) : Prop :=
  g.nodes.Nodup ∧ (∀ e ∈ g.edges, e.1 ∈ g.nodes ∧ e.2.1 ∈ g.nodes) ∧
    (g.edges.map (fun e => (e.1, e.2.1))).Nodup

instance (g : Graph V) : Decidable (WF g) := by
  unfold WF; infer_instance

/-! ### Basic facts about the extended-distance arithmetic -/

theorem dLe_refl (x : Option ℚ) : dLe x x := by
  cases x <;> simp [dLe]

theorem dLe_trans {x y z : Option ℚ} (h1 : dLe x y) (h2 : dLe y z) : dLe x z := by
  cases x <;> cases y <;> cases z <;> simp_all [dLe]
  exact le_trans h1 h2

theorem dLe_none (x : Option ℚ) : dLe x none := by
  cases x <;> simp [dLe]

theorem dLt_eq_false_iff {x y : Option ℚ} : dLt x y = false ↔ dLe y x := by
  cases x <;> cases y <;> simp [dLt, dLe]

theorem dLt_imp_dLe {x y : Option ℚ} (h : dLt x y = true) : dLe x y := by
  cases x <;> cases y <;> simp_all [dLt, dLe]
  exact le_of_lt h

theorem dAdd_assoc (x : Option ℚ) (w w1 : ℚ) : dAdd (dAdd x w) w1 = dAdd x (w + w1) := by
  cases x <;> simp [dAdd, add_assoc]

theorem dAdd_zero (x : Option ℚ) : dAdd x 0 = x := by
  cases x <;> simp [dAdd]

theorem dLe_dAdd {x y : Option ℚ} (w : ℚ) (h : dLe x y) : dLe (dAdd x w) (dAdd y w) := by
  cases x <;> cases y <;> simp_all [dLe, dAdd]

theorem dLe_some_dest {x : Option ℚ} {b : ℚ} (h : dLe x (some b)) :
    ∃ a, x = some a ∧ a ≤ b := by
  cases x with
  | none => exact absurd h (by simp [dLe])
  | some a => exact ⟨a, rfl, h⟩

/-! ### Walks -/

@[simp]
theorem walkWeight_nil : walkWeight ([] : List (V × V × ℚ)) = 0 := rfl

@[simp]
theorem walkWeight_cons (e : V × V × ℚ) (es : List (V × V × ℚ)) :
    walkWeight (e :: es) = e.2.2 + walkWeight es := by
  simp [walkWeight]

@[simp]
theorem walkWeight_append (l1 l2 : List (V × V × ℚ)) :
    walkWeight (l1 ++ l2) = walkWeight l1 + walkWeight l2 := by
  simp [walkWeight]

@[simp]
theorem chain_nil {u v : V} : chain u ([] : List (V × V × ℚ)) v ↔ u = v := Iff.rfl

@[simp]
theorem chain_cons {u v : V} {e : V × V × ℚ} {es : List (V × V × ℚ)} :
    chain u (e :: es) v ↔ e.1 = u ∧ chain e.2.1 es v := Iff.rfl

theorem chain_append {l1 l2 : List (V × V × ℚ)} {u v : V} :
    chain u (l1 ++ l2) v ↔ ∃ m, chain u l1 m ∧ chain m l2 v := by
  induction l1 generalizing u with
  | nil =>
    simp only [List.nil_append, chain_nil]
    exact ⟨fun h => ⟨u, rfl, h⟩, fun ⟨m, hm, h⟩ => hm ▸ h⟩
  | cons e es ih =>
    simp only [List.cons_append, chain_cons, ih]
    constructor
    · rintro ⟨he, m, h1, h2⟩; exact ⟨m, ⟨he, h1⟩, h2⟩
    · rintro ⟨m, ⟨he, h1⟩, h2⟩; exact ⟨he, m, h1, h2⟩

theorem IsWalk.nil (g : Graph V) (u : V) : IsWalk g u u [] :=
  ⟨by simp, rfl⟩

theorem IsWalk.append {g : Graph V} {u m v : V} {l1 l2 : List (V × V × ℚ)}
    (h1 : IsWalk g u m l1) (h2 : IsWalk g m v l2) : IsWalk g u v (l1 ++ l2) := by
  refine ⟨?_, chain_append.mpr ⟨m, h1.2, h2.2⟩⟩
  intro e he
  rcases List.mem_append.mp he with h | h
  · exact h1.1 e h
  · exact h2.1 e h

theorem IsWalk.snoc {g : Graph V} {u m : V} {es : List (V × V × ℚ)} {e : V × V × ℚ}
    (h1 : IsWalk g u m es) (he : e ∈ g.edges) (hm : e.1 = m) :
    IsWalk g u e.2.1 (es ++ [e]) :=
  h1.append ⟨by simpa using he, by simp [chain, hm]⟩

theorem IsWalk.split {g : Graph V} {u v : V} {l1 l2 : List (V × V × ℚ)}
    (h : IsWalk g u v (l1 ++ l2)) : ∃ m, IsWalk g u m l1 ∧ IsWalk g m v l2 := by
  rcases chain_append.mp h.2 with ⟨m, h1, h2⟩
  exact ⟨m, ⟨fun e he => h.1 e (List.mem_append.mpr (Or.inl he)), h1⟩,
    ⟨fun e he => h.1 e (List.mem_append.mpr (Or.inr he)), h2⟩⟩

/-! ### Single relaxation steps -/

theorem relaxEdge_not_fired {s : BFState V} {e : V × V × ℚ}
    (h : dLt (dAdd (s.dist e.1) e.2.2) (s.dist e.2.1) = false) : relaxEdge s e = s := by
  simp [relaxEdge, h]

theorem relaxEdge_fired {s : BFState V} {e : V × V × ℚ}
    (h : dLt (dAdd (s.dist e.1) e.2.2) (s.dist e.2.1) = true) :
    relaxEdge s e =
      { dist := Function.update s.dist e.2.1 (dAdd (s.dist e.1) e.2.2),
        pred := Function.update s.pred e.2.1 (some e.1) } := by
  simp [relaxEdge, h]

theorem relaxEdge_dist_le (s : BFState V) (e : V × V × ℚ) (n : V) :
    dLe ((relaxEdge s e).dist n) (s.dist n) := by
  by_cases h : dLt (dAdd (s.dist e.1) e.2.2) (s.dist e.2.1) = true
  · rw [relaxEdge_fired h]
    by_cases hn : n = e.2.1
    · subst hn
      simpa [Function.update] using dLt_imp_dLe h
    · simp [Function.update, hn, dLe_refl]
  · rw [relaxEdge_not_fired (Bool.of_not_eq_true h)]
    exact dLe_refl _

theorem foldl_relax_dist_le (l : List (V × V × ℚ)) (s : BFState V) (n : V) :
    dLe ((l.foldl relaxEdge s).dist n) (s.dist n) := by
  induction l generalizing s with
  | nil => exact dLe_refl _
  | cons e es ih => exact dLe_trans (ih (relaxEdge s e)) (relaxEdge_dist_le s e n)

theorem iterate_relax_dist_le (g : Graph V) (k : Nat) (s : BFState V) (n : V) :
    dLe (((relaxRound g)^[k] s).dist n) (s.dist n) := by
  induction k generalizing s with
  | zero => exact dLe_refl _
  | succ k ih =>
    rw [Function.iterate_succ_apply]
    exact dLe_trans (ih (relaxRound g s)) (foldl_relax_dist_le g.edges s n)

/-- Generic preservation of a state invariant through one relaxation round. -/
theorem foldl_relax_preserve {g : Graph V} {P : BFState V → Prop}
    (step : ∀ s e, e ∈ g.edges → P s → P (relaxEdge s e)) :
    ∀ (l : List (V × V × ℚ)), (∀ e ∈ l, e ∈ g.edges) → ∀ s, P s → P (l.foldl relaxEdge s) := by
  intro l
  induction l with
  | nil => intro _ s hs; exact hs
  | cons e es ih =>
    intro hl s hs
    exact ih (fun x hx => hl x (List.mem_cons_of_mem e hx))
      (relaxEdge s e) (step s e (hl e (List.mem_cons_self e es)) hs)

theorem iterate_relax_preserve {g : Graph V} {P : BFState V → Prop}
    (step : ∀ s e, e ∈ g.edges → P s → P (relaxEdge s e)) :
    ∀ (k : Nat) (s : BFState V), P s → P ((relaxRound g)^[k] s) := by
  intro k
  induction k with
  | zero => intro s hs; exact hs
  | succ k ih =>
    intro s hs
    rw [Function.iterate_succ_apply]
    exact ih _ (foldl_relax_preserve step g.edges (fun _ hx => hx) s hs)

/-! ### The algorithm invariants -/

/-- At most one weight per ordered pair of endpoints (a `DiGraph` property). -/
def UniquePairs (g : Graph V) : Prop :=
  ∀ u v w w1, (u, v, w) ∈ g.edges → (u, v, w1) ∈ g.edges → w = w1

theorem WF.uniquePairs {g : Graph V} (h : WF g) : UniquePairs g := by
  intro u v w w1 h1 h2
  have := List.inj_on_of_nodup_map h.2.2 h1 h2 (by simp)
  simpa using congrArg (fun e => e.2.2) this

/-- Invariant: every finite tentative distance is the exact total weight of
some walk from the source. -/
def ExactWalks (g : Graph V) (source : V) (s : BFState V) : Prop :=
  ∀ v c, s.dist v = some c → ∃ es, IsWalk g source v es ∧ walkWeight es = c

/-- Invariant on the source's entries: its distance never exceeds 0, and a
predecessor is only ever recorded for it once its distance has gone
strictly negative. -/
def SrcInv (source : V) (s : BFState V) : Prop :=
  dLe (s.dist source) (some 0) ∧
    (s.pred source = none ∨ ∃ c, s.dist source = some c ∧ c < 0)

/-- Invariant: a node with a finite distance but no predecessor is the source. -/
def RootInv (source : V) (s : BFState V) : Prop :=
  ∀ v, s.dist v ≠ none → s.pred v = none → v = source

/-- Invariant: each predecessor link is backed by a graph edge whose
relaxation inequality holds, with finite distances at both ends. -/
def PredInv (g : Graph V) (s : BFState V) : Prop :=
  ∀ v u, s.pred v = some u → ∃ w a b, (u, v, w) ∈ g.edges ∧
    s.dist u = some a ∧ s.dist v = some b ∧ a + w ≤ b

theorem relaxEdge_dist_eq {s : BFState V} {e : V × V × ℚ}
    (h : dLt (dAdd (s.dist e.1) e.2.2) (s.dist e.2.1) = true) :
    (relaxEdge s e).dist = Function.update s.dist e.2.1 (dAdd (s.dist e.1) e.2.2) := by
  rw [relaxEdge_fired h]

theorem relaxEdge_pred_eq {s : BFState V} {e : V × V × ℚ}
    (h : dLt (dAdd (s.dist e.1) e.2.2) (s.dist e.2.1) = true) :
    (relaxEdge s e).pred = Function.update s.pred e.2.1 (some e.1) := by
  rw [relaxEdge_fired h]

/-- When the relaxation guard holds, the tail's distance is finite. -/
theorem fired_dist_tail {s : BFState V} {e : V × V × ℚ}
    (h : dLt (dAdd (s.dist e.1) e.2.2) (s.dist e.2.1) = true) :
    ∃ a, s.dist e.1 = some a := by
  cases hu : s.dist e.1 with
  | none => rw [hu] at h; exact absurd h (by simp [dAdd, dLt])
  | some a => exact ⟨a, rfl⟩

theorem initState_exactWalks (g : Graph V) (source : V) :
    ExactWalks g source (initState source) := by
  intro v c hv
  simp only [initState] at hv
  by_cases h : v = source
  · subst h
    rw [if_pos rfl] at hv
    refine ⟨[], IsWalk.nil g v, ?_⟩
    simp only [Option.some.injEq] at hv
    simp [← hv]
  · rw [if_neg h] at hv
    exact absurd hv (by simp)

theorem initState_srcInv (source : V) : SrcInv source (initState (V := V) source) := by
  constructor
  · simp [initState, dLe]
  · exact Or.inl rfl

theorem initState_rootInv (source : V) : RootInv source (initState (V := V) source) := by
  intro v hv _
  by_contra h
  exact hv (by simp [initState, h])

theorem initState_predInv (g : Graph V) (source : V) : PredInv g (initState source) := by
  intro v u hv
  exact absurd hv (by simp [initState])

theorem relaxEdge_preserves_exactWalks {g : Graph V} {source : V} :
    ∀ s e, e ∈ g.edges → ExactWalks g source s → ExactWalks g source (relaxEdge s e) := by
  intro s e he hex
  by_cases hf : dLt (dAdd (s.dist e.1) e.2.2) (s.dist e.2.1) = true
  · intro v c hv
    rw [relaxEdge_dist_eq hf] at hv
    by_cases hv0 : v = e.2.1
    · subst hv0
      rw [Function.update_same] at hv
      obtain ⟨a, ha⟩ := fired_dist_tail hf
      rw [ha] at hv
      simp only [dAdd, Option.some.injEq] at hv
      obtain ⟨es, hw, hwt⟩ := hex e.1 a ha
      exact ⟨es ++ [e], hw.snoc he rfl, by simp [hwt, hv]⟩
    · rw [Function.update_noteq hv0] at hv
      exact hex v c hv
  · rw [relaxEdge_not_fired (Bool.of_not_eq_true hf)]
    exact hex

theorem relaxEdge_preserves_srcInv {g : Graph V} {source : V} :
    ∀ s e, e ∈ g.edges → SrcInv source s → SrcInv source (relaxEdge s e) := by
  intro s e _ hs
  have hmono := relaxEdge_dist_le s e source
  refine ⟨dLe_trans hmono hs.1, ?_⟩
  by_cases hf : dLt (dAdd (s.dist e.1) e.2.2) (s.dist e.2.1) = true
  · by_cases h0 : e.2.1 = source
    · subst h0
      right
      obtain ⟨c0, hc0, hc0le⟩ := dLe_some_dest hs.1
      cases hx : dAdd (s.dist e.1) e.2.2 with
      | none => rw [hx] at hf; exact absurd hf (by simp [dLt])
      | some x =>
        have hxlt : x < c0 := by
          rw [hx, hc0] at hf
          simpa [dLt] using hf
        refine ⟨x, ?_, lt_of_lt_of_le hxlt hc0le⟩
        rw [relaxEdge_dist_eq hf, Function.update_same, hx]
    · rcases hs.2 with h | ⟨c, hc, hneg⟩
      · left
        rw [relaxEdge_pred_eq hf, Function.update_noteq (fun hh => h0 hh.symm), h]
      · right
        exact ⟨c, by rw [relaxEdge_dist_eq hf,
          Function.update_noteq (fun hh => h0 hh.symm), hc], hneg⟩
  · rw [relaxEdge_not_fired (Bool.of_not_eq_true hf)]
    exact hs.2

theorem relaxEdge_preserves_rootInv {g : Graph V} {source : V} :
    ∀ s e, e ∈ g.edges → RootInv source s → RootInv source (relaxEdge s e) := by
  intro s e _ hr
  by_cases hf : dLt (dAdd (s.dist e.1) e.2.2) (s.dist e.2.1) = true
  · intro v hv hp
    rw [relaxEdge_pred_eq hf] at hp
    rw [relaxEdge_dist_eq hf] at hv
    by_cases hv0 : v = e.2.1
    · subst hv0
      rw [Function.update_same] at hp
      exact absurd hp (by simp)
    · rw [Function.update_noteq hv0] at hv hp
      exact hr v hv hp
  · rw [relaxEdge_not_fired (Bool.of_not_eq_true hf)]
    exact hr

theorem relaxEdge_preserves_predInv {g : Graph V} :
    ∀ s e, e ∈ g.edges → PredInv g s → PredInv g (relaxEdge s e) := by
  intro s e he hp
  by_cases hf : dLt (dAdd (s.dist e.1) e.2.2) (s.dist e.2.1) = true
  · obtain ⟨a0, ha0⟩ := fired_dist_tail hf
    intro v u hv
    rw [relaxEdge_pred_eq hf] at hv
    rw [relaxEdge_dist_eq hf]
    by_cases hv0 : v = e.2.1
    · subst hv0
      rw [Function.update_same] at hv
      replace hv : u = e.1 := by simpa using hv.symm
      subst hv
      by_cases huv : e.1 = e.2.1
      · -- a self loop: the guard forces a strictly negative weight
        have hd : s.dist e.2.1 = some a0 := by rw [← huv, ha0]
        have hw0 : e.2.2 < 0 := by
          have hf1 := hf
          simp only [ha0, hd, dAdd, dLt, decide_eq_true_eq] at hf1
          linarith
        refine ⟨e.2.2, a0 + e.2.2, a0 + e.2.2, he, ?_, ?_, by linarith⟩
        · simp only [ha0, dAdd]
          rw [huv, Function.update_same]
        · simp [Function.update_same, ha0, dAdd]
      · refine ⟨e.2.2, a0, a0 + e.2.2, he, ?_, ?_, le_refl _⟩
        · rw [Function.update_noteq huv, ha0]
        · simp [Function.update_same, ha0, dAdd]
    · rw [Function.update_noteq hv0] at hv
      obtain ⟨w, a, b, hew, hda, hdb, hle⟩ := hp v u hv
      by_cases huv0 : u = e.2.1
      · have hd : s.dist e.2.1 = some a := by rw [← huv0, hda]
        have hf1 := hf
        simp only [ha0, hd, dAdd, dLt, decide_eq_true_eq] at hf1
        refine ⟨w, a0 + e.2.2, b, hew, ?_, ?_, by linarith⟩
        · simp only [ha0, dAdd]
          rw [huv0, Function.update_same]
        · rw [Function.update_noteq hv0, hdb]
      · exact ⟨w, a, b, hew, by rw [Function.update_noteq huv0, hda],
          by rw [Function.update_noteq hv0, hdb], hle⟩
  · rw [relaxEdge_not_fired (Bool.of_not_eq_true hf)]
    exact hp

/-! ### Chains in the predecessor map -/

/-- `PredChain g p a l b W`: starting at `a` and following the predecessor
map `p` through the intermediate nodes `l`, one reaches `b`; `W` is the
total weight of the traversed graph edges (each oriented parent → child). -/
def PredChain (g : Graph V) (p : V → Option V) : V → List V → V → ℚ → Prop
  | a, [], b, W => p a = some b ∧ (b, a, W) ∈ g.edges
  | a, x :: xs, b, W => ∃ w W1, p a = some x ∧ (x, a, w) ∈ g.edges ∧
      PredChain g p x xs b W1 ∧ W = w + W1

@[simp]
theorem predChain_nil {g : Graph V} {p : V → Option V} {a b : V} {W : ℚ} :
    PredChain g p a [] b W ↔ p a = some b ∧ (b, a, W) ∈ g.edges := Iff.rfl

@[simp]
theorem predChain_cons {g : Graph V} {p : V → Option V} {a b x : V} {xs : List V} {W : ℚ} :
    PredChain g p a (x :: xs) b W ↔ ∃ w W1, p a = some x ∧ (x, a, w) ∈ g.edges ∧
      PredChain g p x xs b W1 ∧ W = w + W1 := Iff.rfl

theorem PredChain_congr {g : Graph V} {p q : V → Option V} {a b : V} {l : List V} {W : ℚ}
    (hagree : ∀ y ∈ a :: l, p y = q y) (h : PredChain g p a l b W) :
    PredChain g q a l b W := by
  induction l generalizing a W with
  | nil => exact ⟨(hagree a (by simp)).symm ▸ h.1, h.2⟩
  | cons x xs ih =>
    obtain ⟨w, W1, hpa, hew, hch, hsum⟩ := h
    exact ⟨w, W1, (hagree a (by simp)).symm ▸ hpa, hew,
      ih (fun y hy => hagree y (by simp [List.mem_cons] at hy ⊢; tauto)) hch, hsum⟩

theorem PredChain_concat {g : Graph V} {p : V → Option V} {a x b : V}
    {l1 l2 : List V} {W1 W2 : ℚ}
    (h1 : PredChain g p a l1 x W1) (h2 : PredChain g p x l2 b W2) :
    PredChain g p a (l1 ++ x :: l2) b (W1 + W2) := by
  induction l1 generalizing a W1 with
  | nil => exact ⟨W1, W2, h1.1, h1.2, h2, rfl⟩
  | cons y ys ih =>
    obtain ⟨w, Wa, hpa, hew, hch, hsum⟩ := h1
    exact ⟨w, Wa + W2, hpa, hew, ih hch, by rw [hsum]; ring⟩

theorem PredChain_split {g : Graph V} {p : V → Option V} {a x b : V}
    {l1 l2 : List V} {W : ℚ}
    (h : PredChain g p a (l1 ++ x :: l2) b W) :
    ∃ W1 W2, PredChain g p a l1 x W1 ∧ PredChain g p x l2 b W2 ∧ W = W1 + W2 := by
  induction l1 generalizing a W with
  | nil =>
    obtain ⟨w, W1, hpa, hew, hch, hsum⟩ := h
    exact ⟨w, W1, ⟨hpa, hew⟩, hch, hsum⟩
  | cons y ys ih =>
    obtain ⟨w, W1, hpa, hew, hch, hsum⟩ := h
    obtain ⟨Wa, Wb, c1, c2, hab⟩ := ih hch
    exact ⟨w + Wa, Wb, ⟨w, Wa, hpa, hew, c1, rfl⟩, c2, by rw [hsum, hab]; ring⟩

/-- Telescoping the relaxation inequalities down a predecessor chain:
the distance at the chain's top end plus the chain weight bounds the
distance at the bottom end. -/
theorem PredChain_telescope {g : Graph V} {s : BFState V}
    (hup : UniquePairs g) (hpi : PredInv g s) {a b : V} {l : List V} {W : ℚ}
    (h : PredChain g s.pred a l b W) :
    ∃ α β, s.dist b = some α ∧ s.dist a = some β ∧ α + W ≤ β := by
  induction l generalizing a W with
  | nil =>
    obtain ⟨w, α, β, hew, hα, hβ, hle⟩ := hpi a b h.1
    have : w = W := hup b a w W hew h.2
    exact ⟨α, β, hα, hβ, this ▸ hle⟩
  | cons x xs ih =>
    obtain ⟨w, W1, hpa, hew, hch, hsum⟩ := h
    obtain ⟨α, γ, hb, hx, h1⟩ := ih hch
    obtain ⟨w1, γ1, β, hew1, hγ1, hβ, h2⟩ := hpi a x hpa
    have hww : w1 = w := hup x a w1 w hew1 hew
    have hγγ : γ1 = γ := by
      rw [hγ1] at hx
      exact Option.some.inj hx
    refine ⟨α, β, hb, hβ, ?_⟩
    rw [hsum]
    rw [hww, hγγ] at h2
    linarith

/-- Invariant: every cycle in the predecessor map has negative total weight. -/
def NegPredCycles (g : Graph V) (s : BFState V) : Prop :=
  ∀ v l W, PredChain g s.pred v l v W → W < 0

theorem initState_negPredCycles (g : Graph V) (source : V) :
    NegPredCycles g (initState source) := by
  intro v l W h
  cases l with
  | nil => exact absurd h.1 (by simp [initState])
  | cons x xs =>
    obtain ⟨w, W1, hpa, _⟩ := h
    exact absurd hpa (by simp [initState])

theorem relaxEdge_preserves_negPredCycles {g : Graph V} (hup : UniquePairs g) :
    ∀ s e, e ∈ g.edges → PredInv g s ∧ NegPredCycles g s →
      PredInv g (relaxEdge s e) ∧ NegPredCycles g (relaxEdge s e) := by
  intro s e he hps
  obtain ⟨hpi, hcyc⟩ := hps
  refine ⟨relaxEdge_preserves_predInv s e he hpi, ?_⟩
  by_cases hf : dLt (dAdd (s.dist e.1) e.2.2) (s.dist e.2.1) = true
  case neg =>
    rw [relaxEdge_not_fired (Bool.of_not_eq_true hf)]
    exact hcyc
  case pos =>
  obtain ⟨a0, ha0⟩ := fired_dist_tail hf
  have hpeq : (relaxEdge s e).pred = Function.update s.pred e.2.1 (some e.1) :=
    relaxEdge_pred_eq hf
  have hp1v0 : (relaxEdge s e).pred e.2.1 = some e.1 := by
    rw [hpeq, Function.update_same]
  -- a self loop firing forces a strictly negative weight
  have hself : e.1 = e.2.1 → e.2.2 < 0 := by
    intro hloop
    have hd : s.dist e.2.1 = some a0 := by rw [← hloop, ha0]
    have hf1 := hf
    simp only [ha0, hd, dAdd, dLt, decide_eq_true_eq] at hf1
    linarith
  -- a cycle of length one anchored at the updated node
  have hnil : ∀ W, PredChain g (relaxEdge s e).pred e.2.1 [] e.2.1 W → W < 0 := by
    intro W h
    have hu0 : e.1 = e.2.1 := Option.some.inj (hp1v0.symm.trans h.1)
    have hW : W = e.2.2 := by
      refine hup e.2.1 e.2.1 W e.2.2 h.2 ?_
      have he1 : (e.1, e.2.1, e.2.2) ∈ g.edges := he
      rwa [hu0] at he1
    rw [hW]
    exact hself hu0
  -- cycles anchored at the updated node are negative, by strong induction
  -- on the chain length
  have anchored : ∀ n l W, l.length ≤ n →
      PredChain g (relaxEdge s e).pred e.2.1 l e.2.1 W → W < 0 := by
    intro n
    induction n with
    | zero =>
      intro l W hlen h
      have hl : l = [] := List.eq_nil_of_length_eq_zero (Nat.le_zero.mp hlen)
      exact hnil W (hl ▸ h)
    | succ m ih =>
      intro l W hlen h
      cases l with
      | nil => exact hnil W h
      | cons x xs =>
        obtain ⟨w, W1, hpa, hew, hch, hsum⟩ := h
        have hx : x = e.1 := Option.some.inj (hpa.symm.trans hp1v0)
        have hw : w = e.2.2 := by
          refine hup x e.2.1 w e.2.2 hew ?_
          rw [hx]
          exact he
        by_cases hmem : e.2.1 ∈ x :: xs
        · rcases List.mem_cons.mp hmem with hxv | hxs
          · -- the chain immediately returns: a self loop plus a shorter cycle
            subst hxv
            have hlxs : xs.length ≤ m := by
              simp only [List.length_cons] at hlen
              omega
            have hW1 : W1 < 0 := ih xs W1 hlxs hch
            have hw0 : e.2.2 < 0 := hself hx.symm
            rw [hsum, hw]
            linarith
          · -- the chain returns later: split into two shorter cycles
            obtain ⟨l1, l2, hxs12⟩ := List.append_of_mem hxs
            subst hxs12
            obtain ⟨Wa, Wb, c1, c2, hab⟩ := PredChain_split hch
            have hlen1 : (x :: l1).length ≤ m := by
              simp only [List.length_cons, List.length_append] at hlen ⊢
              omega
            have hlen2 : l2.length ≤ m := by
              simp only [List.length_cons, List.length_append] at hlen
              omega
            have houter : PredChain g (relaxEdge s e).pred e.2.1 (x :: l1) e.2.1
                (w + Wa) := ⟨w, Wa, hpa, hew, c1, rfl⟩
            have h1 := ih (x :: l1) (w + Wa) hlen1 houter
            have h2 := ih l2 Wb hlen2 c2
            rw [hsum, hab]
            linarith
        · -- the chain avoids the updated node: it lives in the old map
          have hold : PredChain g s.pred x xs e.2.1 W1 := by
            refine PredChain_congr (fun y hy => ?_) hch
            have hyne : y ≠ e.2.1 := fun hcon => hmem (hcon ▸ hy)
            rw [hpeq, Function.update_noteq hyne]
          obtain ⟨α, β, hdv0, hdx, htel⟩ := PredChain_telescope hup hpi hold
          have hβ : β = a0 := by
            rw [hx] at hdx
            rw [hdx] at ha0
            simpa using ha0
          have hf1 := hf
          simp only [ha0, hdv0, dAdd, dLt, decide_eq_true_eq] at hf1
          rw [hsum, hw]
          rw [hβ] at htel
          linarith
  -- every cycle either avoids the updated node or rotates to an anchored one
  intro v l W h
  by_cases hv0 : e.2.1 ∈ v :: l
  · rcases List.mem_cons.mp hv0 with hv | hvl
    · exact anchored l.length l W le_rfl (hv ▸ h)
    · obtain ⟨l1, l2, hl12⟩ := List.append_of_mem hvl
      subst hl12
      obtain ⟨Wa, Wb, c1, c2, hab⟩ := PredChain_split h
      have hrot : PredChain g (relaxEdge s e).pred e.2.1 (l2 ++ v :: l1) e.2.1
          (Wb + Wa) := PredChain_concat c2 c1
      have := anchored (l2 ++ v :: l1).length (l2 ++ v :: l1) (Wb + Wa) le_rfl hrot
      rw [hab]
      linarith
  · refine hcyc v l W (PredChain_congr (fun y hy => ?_) h)
    have hyne : y ≠ e.2.1 := fun hcon => hv0 (hcon ▸ hy)
    rw [hpeq, Function.update_noteq hyne]

/-! ### Facts about the state after the relaxation rounds -/

theorem runRelax_exactWalks (g : Graph V) (source : V) :
    ExactWalks g source (runRelax g source) :=
  iterate_relax_preserve relaxEdge_preserves_exactWalks _ _ (initState_exactWalks g source)

theorem runRelax_srcInv (g : Graph V) (source : V) :
    SrcInv source (runRelax g source) :=
  iterate_relax_preserve relaxEdge_preserves_srcInv _ _ (initState_srcInv source)

theorem runRelax_rootInv (g : Graph V) (source : V) :
    RootInv source (runRelax g source) :=
  iterate_relax_preserve relaxEdge_preserves_rootInv _ _ (initState_rootInv source)

theorem runRelax_predInv (g : Graph V) (source : V) :
    PredInv g (runRelax g source) :=
  iterate_relax_preserve relaxEdge_preserves_predInv _ _ (initState_predInv g source)

theorem runRelax_negPredCycles {g : Graph V} (hup : UniquePairs g) (source : V) :
    NegPredCycles g (runRelax g source) :=
  (iterate_relax_preserve (relaxEdge_preserves_negPredCycles hup) _ _
    ⟨initState_predInv g source, initState_negPredCycles g source⟩).2

/-- Stability: no edge admits any further improvement. -/
def Stable (g : Graph V) (s : BFState V) : Prop :=
  ∀ e ∈ g.edges, dLe (s.dist e.2.1) (dAdd (s.dist e.1) e.2.2)

theorem stable_of_check {g : Graph V} {s : BFState V}
    (h : improveCheck g s = false) : Stable g s := by
  intro e he
  have := List.any_eq_false.mp h e he
  exact dLt_eq_false_iff.mp (Bool.of_not_eq_true this)

/-- Chaining the stability inequalities along any walk. -/
theorem stable_walk_le {g : Graph V} {s : BFState V} (hst : Stable g s)
    {u v : V} {es : List (V × V × ℚ)} (h : IsWalk g u v es) :
    dLe (s.dist v) (dAdd (s.dist u) (walkWeight es)) := by
  induction es generalizing u with
  | nil =>
    have : u = v := h.2
    subst this
    rw [walkWeight_nil, dAdd_zero]
    exact dLe_refl _
  | cons e es ih =>
    obtain ⟨he1, hch⟩ := h.2
    have hmem : e ∈ g.edges := h.1 e (List.mem_cons_self e es)
    have h1 : dLe (s.dist e.2.1) (dAdd (s.dist u) e.2.2) := he1 ▸ hst e hmem
    have h2 : dLe (s.dist v) (dAdd (s.dist e.2.1) (walkWeight es)) :=
      ih ⟨fun x hx => h.1 x (List.mem_cons_of_mem e hx), hch⟩
    refine dLe_trans h2 ?_
    rw [walkWeight_cons, ← dAdd_assoc]
    exact dLe_dAdd _ h1

theorem bellman_ford_eq_ok {g : Graph V} {source : V}
    (h : improveCheck g (runRelax g source) = false) :
    bellman_ford g source = Except.ok ((runRelax g source).dist, bfPaths g source) := by
  simp [bellman_ford, h]

theorem bellman_ford_ok_inv {g : Graph V} {source : V}
    {d : V → Option ℚ} {p : V → Option (List V)}
    (h : bellman_ford g source = Except.ok (d, p)) :
    improveCheck g (runRelax g source) = false ∧
      d = (runRelax g source).dist ∧ p = bfPaths g source := by
  by_cases hc : improveCheck g (runRelax g source) = true
  · rw [bellman_ford, if_pos hc] at h
    cases h
  · have hc2 : improveCheck g (runRelax g source) = false := Bool.of_not_eq_true hc
    rw [bellman_ford_eq_ok hc2] at h
    have := Except.ok.inj h
    exact ⟨hc2, congrArg Prod.fst this.symm, congrArg Prod.snd this.symm⟩

/-- On success the source keeps distance exactly 0. -/
theorem runRelax_src_dist {g : Graph V} {source : V}
    (hok : improveCheck g (runRelax g source) = false) :
    (runRelax g source).dist source = some 0 := by
  obtain ⟨c, hc, hcle⟩ := dLe_some_dest (runRelax_srcInv g source).1
  obtain ⟨es, hw, hwt⟩ := runRelax_exactWalks g source source c hc
  have := stable_walk_le (stable_of_check hok) hw
  rw [hc, hwt, dAdd] at this
  have h0 : 0 ≤ c := by
    simpa [dLe] using this
  rw [hc, le_antisymm hcle h0]

/-- On success the source has no recorded predecessor. -/
theorem runRelax_src_pred {g : Graph V} {source : V}
    (hok : improveCheck g (runRelax g source) = false) :
    (runRelax g source).pred source = none := by
  rcases (runRelax_srcInv g source).2 with h | ⟨c, hc, hneg⟩
  · exact h
  · rw [runRelax_src_dist hok] at hc
    exact absurd (Option.some.inj hc) (by simpa using ne_of_gt hneg)

/-- On success every walk from the source bounds the final distance. -/
theorem runRelax_dist_le_walk {g : Graph V} {source : V}
    (hok : improveCheck g (runRelax g source) = false)
    {n : V} {es : List (V × V × ℚ)} (hw : IsWalk g source n es) :
    dLe ((runRelax g source).dist n) (some (walkWeight es)) := by
  have := stable_walk_le (stable_of_check hok) hw
  rw [runRelax_src_dist hok] at this
  simpa [dAdd] using this

/-! ### The round-count upper bound -/

/-- After a round containing the edge `e`, the head's distance is bounded by
the tail's distance at the start of the round plus the edge weight. -/
theorem foldl_relax_dist_le_of_mem {e : V × V × ℚ} :
    ∀ (l : List (V × V × ℚ)), e ∈ l → ∀ s : BFState V,
      dLe ((l.foldl relaxEdge s).dist e.2.1) (dAdd (s.dist e.1) e.2.2) := by
  intro l
  induction l with
  | nil => intro h; cases h
  | cons f fs ih =>
    intro hmem s
    rcases List.mem_cons.mp hmem with hef | hef
    · subst hef
      have hstep : dLe ((relaxEdge s e).dist e.2.1) (dAdd (s.dist e.1) e.2.2) := by
        by_cases hc : dLt (dAdd (s.dist e.1) e.2.2) (s.dist e.2.1) = true
        · rw [relaxEdge_dist_eq hc, Function.update_same]
          exact dLe_refl _
        · rw [relaxEdge_not_fired (Bool.of_not_eq_true hc)]
          exact dLt_eq_false_iff.mp (Bool.of_not_eq_true hc)
      exact dLe_trans (foldl_relax_dist_le fs (relaxEdge s e) e.2.1) hstep
    · refine dLe_trans (ih hef (relaxEdge s f)) ?_
      exact dLe_dAdd _ (relaxEdge_dist_le s f e.1)

/-- After `k` relaxation rounds, the distance of a node is bounded by the
weight of every walk from the source of at most `k` edges. -/
theorem rounds_bound (g : Graph V) (source : V) :
    ∀ (k : Nat) (n : V) (es : List (V × V × ℚ)), IsWalk g source n es →
      es.length ≤ k →
      dLe (((relaxRound g)^[k] (initState source)).dist n) (some (walkWeight es)) := by
  intro k
  induction k with
  | zero =>
    intro n es hw hlen
    have hnil : es = [] := List.eq_nil_of_length_eq_zero (Nat.le_zero.mp hlen)
    subst hnil
    have : source = n := hw.2
    subst this
    simp [initState, dLe]
  | succ k ih =>
    intro n es hw hlen
    by_cases hsh : es.length ≤ k
    · refine dLe_trans ?_ (ih n es hw hsh)
      rw [Function.iterate_succ_apply']
      exact foldl_relax_dist_le g.edges _ n
    · rcases List.eq_nil_or_concat es with rfl | ⟨es1, e, rfl⟩
      · exact absurd (Nat.zero_le k) (by simpa using hsh)
      · simp only [List.concat_eq_append] at hw hlen ⊢
        obtain ⟨m, hw1, hw2⟩ := hw.split
        obtain ⟨he1, he2⟩ := hw2.2
        have hlen1 : es1.length ≤ k := by
          simp only [List.length_append, List.length_cons, List.length_nil] at hlen
          omega
        have hmem : e ∈ g.edges := hw2.1 e (List.mem_singleton_self e)
        have hn : e.2.1 = n := he2
        have hbound := foldl_relax_dist_le_of_mem g.edges hmem
          ((relaxRound g)^[k] (initState source))
        rw [Function.iterate_succ_apply']
        subst hn
        refine dLe_trans (hbound) ?_
        have hih := ih e.1 es1 (he1 ▸ hw1) hlen1
        refine dLe_trans (dLe_dAdd e.2.2 hih) ?_
        simp [dAdd, walkWeight, dLe]

/-! ### Cutting cycles out of long walks -/

/-- The node reached after crossing the first `i` edges of a walk starting
at `u`. -/
def juncAt : V → List (V × V × ℚ) → Nat → V
  | u, _, 0 => u
  | u, [], _ + 1 => u
  | _, e :: es, i + 1 => juncAt e.2.1 es i

theorem juncAt_mem {ns : List V} :
    ∀ (u : V) (es : List (V × V × ℚ)), u ∈ ns → (∀ e ∈ es, e.2.1 ∈ ns) →
      ∀ i, juncAt u es i ∈ ns := by
  intro u es
  induction es generalizing u with
  | nil => intro hu _ i; cases i <;> exact hu
  | cons e es ih =>
    intro hu hes i
    cases i with
    | zero => exact hu
    | succ j =>
      exact ih e.2.1 (hes e (List.mem_cons_self e es))
        (fun x hx => hes x (List.mem_cons_of_mem e hx)) j

theorem chain_take_junc {n : V} :
    ∀ (es : List (V × V × ℚ)) (u : V), chain u es n →
      ∀ i, i ≤ es.length → chain u (es.take i) (juncAt u es i) := by
  intro es
  induction es with
  | nil =>
    intro u _ i hi
    have : i = 0 := Nat.le_zero.mp hi
    subst this
    simp [juncAt]
  | cons e es ih =>
    intro u hch i hi
    cases i with
    | zero => simp [juncAt]
    | succ j =>
      refine ⟨hch.1, ?_⟩
      exact ih e.2.1 hch.2 j (by simpa using Nat.succ_le_succ_iff.mp hi)

theorem chain_drop_junc {n : V} :
    ∀ (es : List (V × V × ℚ)) (u : V), chain u es n →
      ∀ i, i ≤ es.length → chain (juncAt u es i) (es.drop i) n := by
  intro es
  induction es with
  | nil =>
    intro u hch i hi
    have : i = 0 := Nat.le_zero.mp hi
    subst this
    simpa [juncAt] using hch
  | cons e es ih =>
    intro u hch i hi
    cases i with
    | zero => simpa [juncAt] using hch
    | succ j =>
      exact ih e.2.1 hch.2 j (by simpa using Nat.succ_le_succ_iff.mp hi)

theorem juncAt_drop :
    ∀ (es : List (V × V × ℚ)) (u : V) (i k : Nat),
      juncAt (juncAt u es i) (es.drop i) k = juncAt u es (i + k) := by
  intro es
  induction es with
  | nil =>
    intro u i k
    cases i <;> cases k <;> simp [juncAt]
  | cons e es ih =>
    intro u i k
    cases i with
    | zero => simp [juncAt]
    | succ j =>
      have : j + 1 + k = (j + k) + 1 := by omega
      rw [this]
      simpa [juncAt] using ih e.2.1 j k

/-- Pigeonhole: a function taking more values than a duplicate-free list can
hold repeats itself. -/
theorem fn_pigeonhole {f : Nat → V} {ns : List V} {m : Nat}
    (hmem : ∀ i, i ≤ m → f i ∈ ns) (hm : ns.length ≤ m) :
    ∃ i j, i < j ∧ j ≤ m ∧ f i = f j := by
  have hcard : ns.toFinset.card < (Finset.range (m + 1)).card := by
    have h1 : ns.toFinset.card ≤ ns.length := ns.toFinset_card_le
    simp only [Finset.card_range]
    omega
  have hmaps : ∀ i ∈ Finset.range (m + 1), f i ∈ ns.toFinset := by
    intro i hi
    rw [List.mem_toFinset]
    exact hmem i (by simpa using Nat.lt_succ_iff.mp (Finset.mem_range.mp hi))
  obtain ⟨x, hx, y, hy, hxy, hfxy⟩ :=
    Finset.exists_ne_map_eq_of_card_lt_of_maps_to hcard hmaps
  rcases lt_or_gt_of_ne hxy with h | h
  · exact ⟨x, y, h, Nat.lt_succ_iff.mp (Finset.mem_range.mp hy), hfxy⟩
  · exact ⟨y, x, h, Nat.lt_succ_iff.mp (Finset.mem_range.mp hx), hfxy.symm⟩

/-- Any walk from the source at least as long as the node count contains a
nonempty closed sub-walk at a node reachable from the source; removing it
leaves a strictly shorter walk whose weight differs by the cycle weight. -/
theorem walk_cut {g : Graph V} {source n : V} (hwf : WF g) (hsrc : source ∈ g.nodes)
    {es : List (V × V × ℚ)} (hw : IsWalk g source n es)
    (hlong : g.nodes.length ≤ es.length) :
    ∃ x esp esc esn, IsWalk g source x esp ∧ IsWalk g x x esc ∧ esc ≠ [] ∧
      IsWalk g source n esn ∧ esn.length < es.length ∧
      walkWeight esn + walkWeight esc = walkWeight es := by
  have hheads : ∀ e ∈ es, e.2.1 ∈ g.nodes := fun e he => (hwf.2.1 e (hw.1 e he)).2
  have hjmem : ∀ i, i ≤ es.length → juncAt source es i ∈ g.nodes :=
    fun i _ => juncAt_mem source es hsrc hheads i
  obtain ⟨i, j, hij, hjm, heq⟩ := fn_pigeonhole hjmem hlong
  have hi_le : i ≤ es.length := le_of_lt (lt_of_lt_of_le hij hjm)
  refine ⟨juncAt source es j, es.take i, (es.drop i).take (j - i),
    es.take i ++ es.drop j, ?_, ?_, ?_, ?_, ?_, ?_⟩
  · -- prefix walk to the repeated node
    refine ⟨fun e he => hw.1 e (List.take_subset i es he), ?_⟩
    rw [← heq]
    exact chain_take_junc es source hw.2 i hi_le
  · -- the closed sub-walk
    have hdrop : chain (juncAt source es i) (es.drop i) n :=
      chain_drop_junc es source hw.2 i hi_le
    have htake := chain_take_junc (es.drop i) (juncAt source es i) hdrop (j - i)
      (by simp [List.length_drop]; omega)
    rw [juncAt_drop, Nat.add_sub_cancel' (le_of_lt hij)] at htake
    refine ⟨fun e he => hw.1 e (List.drop_subset i es (List.take_subset _ _ he)), ?_⟩
    rw [← heq] at htake ⊢
    exact htake
  · -- it is nonempty
    intro hcon
    have := congrArg List.length hcon
    simp only [List.length_take, List.length_drop, List.length_nil] at this
    omega
  · -- the spliced walk
    refine ⟨fun e he => hw.1 e
      (by rcases List.mem_append.mp he with h | h
          · exact List.take_subset i es h
          · exact List.drop_subset j es h), ?_⟩
    refine chain_append.mpr ⟨juncAt source es j, ?_, chain_drop_junc es source hw.2 j hjm⟩
    rw [← heq]
    exact chain_take_junc es source hw.2 i hi_le
  · -- it is strictly shorter
    simp only [List.length_append, List.length_take, List.length_drop]
    omega
  · -- the weights add up
    have hsplit1 : es.take i ++ es.drop i = es := List.take_append_drop i es
    have hsplit2 : (es.drop i).take (j - i) ++ (es.drop i).drop (j - i) = es.drop i :=
      List.take_append_drop (j - i) (es.drop i)
    have hdd : (es.drop i).drop (j - i) = es.drop j := by
      rw [List.drop_drop, Nat.add_sub_cancel' (le_of_lt hij)]
    calc walkWeight (es.take i ++ es.drop j) + walkWeight ((es.drop i).take (j - i))
        = walkWeight (es.take i) +
            (walkWeight ((es.drop i).take (j - i)) + walkWeight ((es.drop i).drop (j - i))) := by
          rw [hdd, walkWeight_append]; ring
      _ = walkWeight (es.take i) + walkWeight (es.drop i) := by
          rw [← walkWeight_append, hsplit2]
      _ = walkWeight es := by rw [← walkWeight_append, hsplit1]

/-- Every walk from the source can be shortened to fewer than `|V|` edges. -/
theorem shorten_length {g : Graph V} {source : V} (hwf : WF g) (hsrc : source ∈ g.nodes) :
    ∀ (m : Nat) (es : List (V × V × ℚ)) (n : V), es.length ≤ m → IsWalk g source n es →
      ∃ es1, IsWalk g source n es1 ∧ es1.length ≤ g.nodes.length - 1 := by
  intro m
  induction m with
  | zero =>
    intro es n hlen hw
    have : es = [] := List.eq_nil_of_length_eq_zero (Nat.le_zero.mp hlen)
    subst this
    exact ⟨[], hw, by omega⟩
  | succ m ih =>
    intro es n hlen hw
    by_cases hsh : es.length ≤ g.nodes.length - 1
    · exact ⟨es, hw, hsh⟩
    · have hlong : g.nodes.length ≤ es.length := by omega
      obtain ⟨x, esp, esc, esn, _, _, _, hwn, hshort, _⟩ := walk_cut hwf hsrc hw hlong
      exact ih esn n (by omega) hwn

/-- With no negative cycle reachable from the source, every walk can be
shortened to fewer than `|V|` edges without increasing its weight. -/
theorem shorten_weight {g : Graph V} {source : V} (hwf : WF g) (hsrc : source ∈ g.nodes)
    (hnoneg : ¬ HasNegCycleFrom g source) :
    ∀ (m : Nat) (es : List (V × V × ℚ)) (n : V), es.length ≤ m → IsWalk g source n es →
      ∃ es1, IsWalk g source n es1 ∧ es1.length ≤ g.nodes.length - 1 ∧
        walkWeight es1 ≤ walkWeight es := by
  intro m
  induction m with
  | zero =>
    intro es n hlen hw
    have : es = [] := List.eq_nil_of_length_eq_zero (Nat.le_zero.mp hlen)
    subst this
    exact ⟨[], hw, by omega, le_refl _⟩
  | succ m ih =>
    intro es n hlen hw
    by_cases hsh : es.length ≤ g.nodes.length - 1
    · exact ⟨es, hw, hsh, le_refl _⟩
    · have hlong : g.nodes.length ≤ es.length := by omega
      obtain ⟨x, esp, esc, esn, hwp, hwc, hcne, hwn, hshort, hwt⟩ :=
        walk_cut hwf hsrc hw hlong
      have hpos : 0 ≤ walkWeight esc := by
        by_contra hneg
        exact hnoneg ⟨x, esp, esc, hwp, hwc, hcne, by linarith⟩
      obtain ⟨es1, hw1, hlen1, hwt1⟩ := ih esn n (by omega) hwn
      exact ⟨es1, hw1, hlen1, by linarith⟩

/-! ### The two outcomes of the verification pass -/

theorem hasNegCycleFrom_src_mem {g : Graph V} {source : V} (hwf : WF g)
    (h : HasNegCycleFrom g source) : source ∈ g.nodes := by
  obtain ⟨x, es1, es2, hw1, hw2, hne, _⟩ := h
  cases es1 with
  | nil =>
    have hx : source = x := hw1.2
    subst hx
    cases es2 with
    | nil => exact absurd rfl hne
    | cons e es =>
      have he1 : e.1 = source := hw2.2.1
      exact he1 ▸ (hwf.2.1 e (hw2.1 e (List.mem_cons_self e es))).1
  | cons e es =>
    have he1 : e.1 = source := hw1.2.1
    exact he1 ▸ (hwf.2.1 e (hw1.1 e (List.mem_cons_self e es))).1

/-- Convergence: with no negative cycle reachable from the source, the
`|V| - 1` relaxation rounds stabilise and the verification pass finds no
improving edge. -/
theorem check_passes {g : Graph V} {source : V} (hwf : WF g) (hsrc : source ∈ g.nodes)
    (hnoneg : ¬ HasNegCycleFrom g source) :
    improveCheck g (runRelax g source) = false := by
  refine List.any_eq_false.mpr ?_
  intro e he hfired
  obtain ⟨a, ha⟩ := fired_dist_tail hfired
  obtain ⟨es, hw, hwt⟩ := runRelax_exactWalks g source e.1 a ha
  have hw2 : IsWalk g source e.2.1 (es ++ [e]) := hw.snoc he rfl
  obtain ⟨es1, hw1, hlen1, hwt1⟩ := shorten_weight hwf hsrc hnoneg
    (es ++ [e]).length (es ++ [e]) e.2.1 le_rfl hw2
  have hb : dLe ((runRelax g source).dist e.2.1) (some (walkWeight es1)) :=
    rounds_bound g source (g.nodes.length - 1) e.2.1 es1 hw1 hlen1
  have hwapp : walkWeight (es ++ [e]) = a + e.2.2 := by
    rw [walkWeight_append, hwt]
    simp
  rw [ha] at hfired
  simp only [dAdd] at hfired
  obtain ⟨b, hbv, hble⟩ := dLe_some_dest hb
  rw [hbv] at hfired
  simp only [dLt, decide_eq_true_eq] at hfired
  rw [hwapp] at hwt1
  linarith

/-- Detection: with a negative cycle reachable from the source, the
verification pass still finds an improving edge. -/
theorem check_fires {g : Graph V} {source : V} (hwf : WF g)
    (hneg : HasNegCycleFrom g source) :
    improveCheck g (runRelax g source) = true := by
  have hsrc := hasNegCycleFrom_src_mem hwf hneg
  by_contra hcon
  have hok : improveCheck g (runRelax g source) = false := Bool.of_not_eq_true hcon
  obtain ⟨x, es1, es2, hw1, hw2, hne, hwneg⟩ := hneg
  obtain ⟨esS, hwS, hlenS⟩ := shorten_length hwf hsrc es1.length es1 x le_rfl hw1
  have hb : dLe ((runRelax g source).dist x) (some (walkWeight esS)) :=
    rounds_bound g source (g.nodes.length - 1) x esS hwS hlenS
  obtain ⟨a, ha, _⟩ := dLe_some_dest hb
  have hchain := stable_walk_le (stable_of_check hok) hw2
  rw [ha] at hchain
  have hle : a ≤ a + walkWeight es2 := by simpa [dAdd, dLe] using hchain
  linarith

/-! ### What the predecessor walk returns -/

/-- `PredList p pre o`: the walk loop, started with `current = o`,
terminates and prepends exactly `pre` (in final order) to its accumulator. -/
inductive PredList (p : V → Option V) : List V → Option V → Prop
  | nil : PredList p [] none
  | cons {pre : List V} {c : V} : PredList p pre (p c) → PredList p (pre ++ [c]) (some c)

theorem walk_none_eq (p : V → Option V) (fuel : Nat) (acc : List V) :
    walk p fuel none acc = some acc := by
  cases fuel <;> rfl

theorem walk_eq_some {p : V → Option V} :
    ∀ (fuel : Nat) (o : Option V) (acc res : List V),
      walk p fuel o acc = some res → ∃ pre, res = pre ++ acc ∧ PredList p pre o := by
  intro fuel
  induction fuel with
  | zero =>
    intro o acc res h
    cases o with
    | none =>
      refine ⟨[], ?_, PredList.nil⟩
      simpa [walk] using (Option.some.inj h).symm
    | some c => exact absurd h (by simp [walk])
  | succ fuel ih =>
    intro o acc res h
    cases o with
    | none =>
      refine ⟨[], ?_, PredList.nil⟩
      simpa [walk] using (Option.some.inj h).symm
    | some c =>
      have h1 : walk p fuel (p c) (c :: acc) = some res := h
      obtain ⟨pre, hres, hpl⟩ := ih (p c) (c :: acc) res h1
      refine ⟨pre ++ [c], ?_, PredList.cons hpl⟩
      rw [hres, List.append_assoc, List.singleton_append]

theorem PredList_inv {p : V → Option V} {pre : List V} {o : Option V}
    (h : PredList p pre o) :
    (o = none → pre = []) ∧
      (∀ c, o = some c → ∃ pre1, pre = pre1 ++ [c] ∧ PredList p pre1 (p c)) := by
  cases h with
  | nil => exact ⟨fun _ => rfl, fun c hc => Option.noConfusion hc⟩
  | cons h1 =>
    rename_i pre1 c0
    refine ⟨fun hc => Option.noConfusion hc, fun c hc => ?_⟩
    have hcc : c0 = c := Option.some.inj hc
    subst hcc
    exact ⟨pre1, rfl, h1⟩

theorem PredList_getLast {p : V → Option V} {pre : List V} {c : V}
    (h : PredList p pre (some c)) : pre.getLast? = some c := by
  obtain ⟨pre1, hp, _⟩ := (PredList_inv h).2 c rfl
  rw [hp]
  simp

theorem PredList_head {p : V → Option V} {pre : List V} {o : Option V}
    (h : PredList p pre o) : ∀ r rest, pre = r :: rest → p r = none := by
  induction h with
  | nil => intro r rest h; cases h
  | cons h1 ih =>
    intro r rest hpre
    rename_i pre1 c
    cases pre1 with
    | nil =>
      simp only [List.nil_append, List.cons.injEq] at hpre
      have h0 : p c = none := by
        rcases ho : p c with _ | d
        · rfl
        · rw [ho] at h1
          obtain ⟨pre2, hp2, _⟩ := (PredList_inv h1).2 d rfl
          exact absurd hp2.symm (by simp)
      rw [← hpre.1]
      exact h0
    | cons r1 rest1 =>
      simp only [List.cons_append, List.cons.injEq] at hpre
      exact hpre.1 ▸ ih r1 rest1 rfl

theorem PredList_chain {p : V → Option V} {pre : List V} {o : Option V}
    (h : PredList p pre o) : List.Chain' (fun a b => p b = some a) pre := by
  induction h with
  | nil => simp
  | cons h1 ih =>
    rename_i pre1 c
    rcases ho : p c with _ | d
    · rw [ho] at h1
      have : pre1 = [] := (PredList_inv h1).1 rfl
      subst this
      simp
    · rw [ho] at h1
      obtain ⟨pre2, hp2, _⟩ := (PredList_inv h1).2 d rfl
      rw [List.chain'_append]
      refine ⟨ih, by simp, ?_⟩
      intro x hx y hy
      rw [List.head?_cons, Option.mem_def, Option.some.injEq] at hy
      subst hy
      rw [hp2, List.getLast?_concat] at hx
      rw [Option.mem_def, Option.some.injEq] at hx
      subst hx
      exact ho

theorem PredList_mem {p : V → Option V} {pre : List V} {o : Option V}
    (h : PredList p pre o) {x : V} (hx : x ∈ pre) :
    some x = o ∨ ∃ y, p y = some x := by
  induction h with
  | nil => cases hx
  | cons h1 ih =>
    rename_i pre1 c
    rcases List.mem_append.mp hx with hx1 | hx1
    · rcases ih hx1 with hcase | hcase
      · rename_i hpc
        exact Or.inr ⟨c, hcase.symm⟩
      · exact Or.inr hcase
    · left
      rw [List.mem_singleton.mp hx1]

/-! ### Termination of the predecessor walk -/

theorem predIter_none (p : V → Option V) : ∀ k, predIter p k none = none
  | 0 => rfl
  | _ + 1 => rfl

theorem predIter_add (p : V → Option V) :
    ∀ (i k : Nat) (o : Option V), predIter p (i + k) o = predIter p k (predIter p i o) := by
  intro i
  induction i with
  | zero =>
    intro k o
    rw [Nat.zero_add]
    rfl
  | succ i ih =>
    intro k o
    cases o with
    | none => rw [predIter_none, predIter_none, predIter_none]
    | some c =>
      have h1 : i + 1 + k = (i + k) + 1 := by omega
      rw [h1]
      show predIter p (i + k) (p c) = predIter p k (predIter p i (p c))
      exact ih k (p c)

theorem predIter_mem_nodes {g : Graph V} {s : BFState V} (hwf : WF g)
    (hpi : PredInv g s) :
    ∀ (k : Nat) (n y : V), n ∈ g.nodes → predIter s.pred k (some n) = some y →
      y ∈ g.nodes := by
  intro k
  induction k with
  | zero =>
    intro n y hn h
    rw [Option.some.inj h] at hn
    exact hn
  | succ k ih =>
    intro n y hn h
    have h1 : predIter s.pred k (s.pred n) = some y := h
    rcases hp : s.pred n with _ | x
    · rw [hp, predIter_none] at h1
      cases h1
    · obtain ⟨w, a, b, hew, _, _, _⟩ := hpi n x hp
      rw [hp] at h1
      exact ih x y (hwf.2.1 _ hew).1 h1

theorem predIter_to_chain {g : Graph V} {s : BFState V} (hpi : PredInv g s) :
    ∀ (k : Nat) (a b : V), predIter s.pred (k + 1) (some a) = some b →
      ∃ l W, PredChain g s.pred a l b W := by
  intro k
  induction k with
  | zero =>
    intro a b h
    have h1 : s.pred a = some b := h
    obtain ⟨w, _, _, hew, _, _, _⟩ := hpi a b h1
    exact ⟨[], w, h1, hew⟩
  | succ k ih =>
    intro a b h
    rcases hp : s.pred a with _ | x
    · have h1 : predIter s.pred (k + 1) (s.pred a) = some b := h
      rw [hp, predIter_none] at h1
      cases h1
    · have h1 : predIter s.pred (k + 1) (some x) = some b := by
        have h2 : predIter s.pred (k + 1) (s.pred a) = some b := h
        rwa [hp] at h2
      obtain ⟨l, W, hch⟩ := ih x b h1
      obtain ⟨w, _, _, hew, _, _, _⟩ := hpi a x hp
      exact ⟨x :: l, w + W, w, W, hp, hew, hch, rfl⟩

/-- A predecessor chain read backwards is a graph walk of the same weight. -/
theorem predChain_to_walk {g : Graph V} {p : V → Option V} :
    ∀ {l : List V} {a b : V} {W : ℚ}, PredChain g p a l b W →
      ∃ es, IsWalk g b a es ∧ walkWeight es = W ∧ es ≠ [] := by
  intro l
  induction l with
  | nil =>
    intro a b W h
    refine ⟨[(b, a, W)], ⟨?_, rfl, rfl⟩, by simp, by simp⟩
    intro x hx
    rw [List.mem_singleton.mp hx]
    exact h.2
  | cons x xs ih =>
    intro a b W h
    obtain ⟨w, W1, hpa, hew, hch, hsum⟩ := h
    obtain ⟨es, hwk, hwt, hne⟩ := ih hch
    refine ⟨es ++ [(x, a, w)], hwk.snoc hew rfl, ?_, by simp⟩
    rw [walkWeight_append, hwt, hsum]
    simp [walkWeight]
    ring

/-- On success the predecessor map has no cycles: iterating it from any
graph node reaches `None` within `|V|` steps. -/
theorem pred_iter_terminates {g : Graph V} {source : V} (hwf : WF g)
    (hok : improveCheck g (runRelax g source) = false)
    {n : V} (hn : n ∈ g.nodes) :
    ∃ k, k ≤ g.nodes.length ∧ predIter (runRelax g source).pred k (some n) = none := by
  by_contra hcon
  push_neg at hcon
  set s := runRelax g source with hs
  have hall : ∀ k, k ≤ g.nodes.length → ∃ y, predIter s.pred k (some n) = some y := by
    intro k hk
    rcases hval : predIter s.pred k (some n) with _ | y
    · exact absurd hval (hcon k hk)
    · exact ⟨y, rfl⟩
  have hpi : PredInv g s := runRelax_predInv g source
  have hmem : ∀ i, i ≤ g.nodes.length → (predIter s.pred i (some n)).getD n ∈ g.nodes := by
    intro i hi
    obtain ⟨y, hy⟩ := hall i hi
    rw [hy]
    simpa using predIter_mem_nodes hwf hpi i n y hn hy
  obtain ⟨i, j, hij, hjm, heq⟩ := fn_pigeonhole hmem le_rfl
  obtain ⟨x, hx⟩ := hall i (le_of_lt (lt_of_lt_of_le hij hjm))
  obtain ⟨y, hy⟩ := hall j hjm
  have hxy : x = y := by
    rw [hx, hy] at heq
    simpa using heq
  subst hxy
  have hcycle : predIter s.pred (j - i) (some x) = some x := by
    have h1 : predIter s.pred (i + (j - i)) (some n) = some x := by
      rw [Nat.add_sub_cancel' (le_of_lt hij)]
      exact hy
    rw [predIter_add, hx] at h1
    exact h1
  have hji : j - i = (j - i - 1) + 1 := by omega
  rw [hji] at hcycle
  obtain ⟨l, W, hch⟩ := predIter_to_chain hpi (j - i - 1) x x hcycle
  have hWneg : W < 0 := runRelax_negPredCycles hwf.uniquePairs source x l W hch
  obtain ⟨α, β, hα, hβ, _⟩ := PredChain_telescope hwf.uniquePairs hpi hch
  obtain ⟨es, hwk, hwt, _⟩ := predChain_to_walk hch
  have hstb := stable_walk_le (stable_of_check hok) hwk
  rw [hα, hwt] at hstb
  have h0 : α ≤ α + W := by simpa [dAdd, dLe] using hstb
  linarith

/-- With enough fuel, a walk whose predecessor iteration reaches `None`
returns a path rather than exhausting its fuel. -/
theorem walk_succeeds {p : V → Option V} :
    ∀ (fuel k : Nat) (o : Option V) (acc : List V), k < fuel →
      predIter p k o = none → ∃ res, walk p fuel o acc = some res := by
  intro fuel
  induction fuel with
  | zero => intro k o acc h; omega
  | succ fuel ih =>
    intro k o acc hk hnone
    cases o with
    | none => exact ⟨acc, walk_none_eq p (fuel + 1) acc⟩
    | some c =>
      cases k with
      | zero => cases hnone
      | succ k =>
        have h1 : predIter p k (p c) = none := hnone
        obtain ⟨res, hres⟩ := ih k (p c) (c :: acc) (by omega) h1
        exact ⟨res, hres⟩

/-! ### The loader: last duplicate row wins -/

theorem addNode_edges (g : Graph V) (n : V) : (addNode g n).edges = g.edges := by
  unfold addNode
  split <;> rfl

theorem find_replace (a b u v : V) (w : ℚ) (hne : ¬(u = a ∧ v = b)) :
    ∀ l : List (V × V × ℚ),
      (l.map (fun e => if e.1 = a ∧ e.2.1 = b then (a, b, w) else e)).find?
          (fun e => decide (e.1 = u ∧ e.2.1 = v)) =
        l.find? (fun e => decide (e.1 = u ∧ e.2.1 = v)) := by
  intro l
  induction l with
  | nil => rfl
  | cons e es ih =>
    by_cases hab : e.1 = a ∧ e.2.1 = b
    · have h1 : ¬(e.1 = u ∧ e.2.1 = v) := by
        rintro ⟨h2, h3⟩
        exact hne ⟨h2 ▸ hab.1.symm ▸ rfl, h3 ▸ hab.2.symm ▸ rfl⟩
      have h2 : ¬((a, b, w).1 = u ∧ (a, b, w).2.1 = v) := by
        rintro ⟨h3, h4⟩
        exact hne ⟨h3.symm, h4.symm⟩
      rw [List.map_cons, if_pos hab,
        List.find?_cons_of_neg _ (by simpa using h2),
        List.find?_cons_of_neg _ (by simpa using h1)]
      exact ih
    · by_cases huv : e.1 = u ∧ e.2.1 = v
      · rw [List.map_cons, if_neg hab,
          List.find?_cons_of_pos _ (by simpa using huv),
          List.find?_cons_of_pos _ (by simpa using huv)]
      · rw [List.map_cons, if_neg hab,
          List.find?_cons_of_neg _ (by simpa using huv),
          List.find?_cons_of_neg _ (by simpa using huv)]
        exact ih

theorem find_replace_hit (a b : V) (w : ℚ) :
    ∀ l : List (V × V × ℚ), l.any (fun e => decide (e.1 = a ∧ e.2.1 = b)) = true →
      (l.map (fun e => if e.1 = a ∧ e.2.1 = b then (a, b, w) else e)).find?
          (fun e => decide (e.1 = a ∧ e.2.1 = b)) = some (a, b, w) := by
  intro l
  induction l with
  | nil => intro h; cases h
  | cons e es ih =>
    intro hany
    by_cases hab : e.1 = a ∧ e.2.1 = b
    · rw [List.map_cons, if_pos hab, List.find?_cons_of_pos _ (by simp)]
    · rw [List.map_cons, if_neg hab, List.find?_cons_of_neg _ (by simpa using hab)]
      refine ih ?_
      rw [List.any_cons, Bool.or_eq_true] at hany
      rcases hany with h | h
      · exact absurd (by simpa using h) hab
      · exact h

/-- `add_edge` sets exactly the weight of the given ordered pair. -/
theorem edgeWeight_add_edge (g : Graph V) (a b u v : V) (w : ℚ) :
    edgeWeight (g.add_edge a b w) u v =
      if u = a ∧ v = b then some w else edgeWeight g u v := by
  unfold Graph.add_edge
  simp only [addNode_edges]
  by_cases hany : g.edges.any (fun e => decide (e.1 = a ∧ e.2.1 = b)) = true
  · rw [if_pos hany]
    by_cases huv : u = a ∧ v = b
    · rw [if_pos huv]
      unfold edgeWeight
      simp only [addNode_edges]
      obtain ⟨hu, hv⟩ := huv
      subst hu; subst hv
      rw [find_replace_hit u v w g.edges hany]
      rfl
    · rw [if_neg huv]
      unfold edgeWeight
      simp only [addNode_edges]
      rw [find_replace a b u v w huv g.edges]
  · rw [if_neg hany]
    unfold edgeWeight
    simp only [addNode_edges]
    rw [List.find?_append]
    by_cases huv : u = a ∧ v = b
    · rw [if_pos huv]
      obtain ⟨hu, hv⟩ := huv
      subst hu; subst hv
      have hnone : g.edges.find? (fun e => decide (e.1 = u ∧ e.2.1 = v)) = none := by
        rw [List.find?_eq_none]
        intro x hx hcon
        exact hany (List.any_eq_true.mpr ⟨x, hx, hcon⟩)
      rw [hnone]
      simp [List.find?]
    · rw [if_neg huv]
      have hlast : List.find? (fun e => decide (e.1 = u ∧ e.2.1 = v)) [(a, b, w)] = none := by
        rw [List.find?_eq_none]
        intro x hx hcon
        rw [List.mem_singleton.mp hx] at hcon
        simp only [decide_eq_true_eq] at hcon
        exact huv ⟨hcon.1.symm, hcon.2.symm⟩
      rw [hlast]
      cases g.edges.find? (fun e => decide (e.1 = u ∧ e.2.1 = v)) <;> rfl

theorem lastWeight_concat (rows : List (V × V × ℚ)) (r : V × V × ℚ) (u v : V) :
    lastWeight (rows ++ [r]) u v =
      if r.1 = u ∧ r.2.1 = v then some r.2.2 else lastWeight rows u v := by
  unfold lastWeight
  rw [List.filter_append]
  by_cases hr : r.1 = u ∧ r.2.1 = v
  · rw [if_pos hr]
    have : List.filter (fun e => decide (e.1 = u ∧ e.2.1 = v)) [r] = [r] := by
      simp [List.filter, hr]
    rw [this, List.getLast?_concat]
    rfl
  · rw [if_neg hr]
    have : List.filter (fun e => decide (e.1 = u ∧ e.2.1 = v)) [r] = [] := by
      simp [List.filter, hr]
    rw [this, List.append_nil]

/-- In the graph the loader builds, the weight stored for an ordered pair is
the weight of the **last** tabular row for that pair (each `add_edge` call
overwrites the previous weight; duplicates are never accumulated). -/
theorem read_graph_last_wins (rows : List (V × V × ℚ)) (u v : V) :
    edgeWeight (read_graph_from_excel rows) u v = lastWeight rows u v := by
  induction rows using List.reverseRecOn with
  | nil => rfl
  | append_singleton rows r ih =>
    have hread : read_graph_from_excel (rows ++ [r]) =
        (read_graph_from_excel rows).add_edge r.1 r.2.1 r.2.2 := by
      unfold read_graph_from_excel
      rw [List.foldl_append]
      rfl
    rw [hread, edgeWeight_add_edge, lastWeight_concat]
    by_cases hc : u = r.1 ∧ v = r.2.1
    · rw [if_pos hc, if_pos ⟨hc.1.symm, hc.2.symm⟩]
    · rw [if_neg hc, if_neg (fun hcon => hc ⟨hcon.1.symm, hcon.2.symm⟩), ih]

/-! ### Calling `bellman_ford` with a source outside the node set -/

/-- With a source outside the node set, no relaxation ever fires: every
tail's distance stays infinite. -/
theorem runRelax_invalid_source {g : Graph V} {source : V} (hwf : WF g)
    (hsrc : source ∉ g.nodes) :
    runRelax g source = initState source := by
  have hfix : relaxRound g (initState source) = initState source := by
    unfold relaxRound
    have hgen : ∀ l : List (V × V × ℚ), (∀ e ∈ l, e ∈ g.edges) →
        l.foldl relaxEdge (initState source) = initState source := by
      intro l
      induction l with
      | nil => intro _; rfl
      | cons e es ih =>
        intro hl
        have he1 : e.1 ∈ g.nodes := (hwf.2.1 e (hl e (List.mem_cons_self e es))).1
        have hne : e.1 ≠ source := fun hcon => hsrc (hcon ▸ he1)
        have hdist : (initState (V := V) source).dist e.1 = none := by
          simp [initState, hne]
        have hstep : relaxEdge (initState source) e = initState source := by
          apply relaxEdge_not_fired
          rw [hdist]
          rfl
        rw [List.foldl_cons, hstep]
        exact ih (fun x hx => hl x (List.mem_cons_of_mem e hx))
    exact hgen g.edges (fun _ hx => hx)
  unfold runRelax
  exact Function.iterate_fixed hfix (g.nodes.length - 1)

theorem improveCheck_invalid_source {g : Graph V} {source : V} (hwf : WF g)
    (hsrc : source ∉ g.nodes) :
    improveCheck g (runRelax g source) = false := by
  rw [runRelax_invalid_source hwf hsrc]
  refine List.any_eq_false.mpr ?_
  intro e he hcon
  have he1 : e.1 ∈ g.nodes := (hwf.2.1 e he).1
  have hne : e.1 ≠ source := fun h => hsrc (h ▸ he1)
  have hdist : (initState (V := V) source).dist e.1 = none := by
    simp [initState, hne]
  rw [hdist] at hcon
  cases hcon

/-! ### Remaining helpers -/

theorem walkWeight_nonneg :
    ∀ es : List (V × V × ℚ), (∀ e ∈ es, 0 ≤ e.2.2) → 0 ≤ walkWeight es := by
  intro es
  induction es with
  | nil => intro _; simp
  | cons e rest ih =>
    intro h
    rw [walkWeight_cons]
    have h1 := h e (List.mem_cons_self e rest)
    have h2 := ih (fun x hx => h x (List.mem_cons_of_mem e hx))
    linarith

theorem no_neg_cycle_of_nonneg {g : Graph V} (h : ∀ e ∈ g.edges, 0 ≤ e.2.2) (source : V) :
    ¬ HasNegCycleFrom g source := by
  rintro ⟨x, es1, es2, _, hw2, _, hneg⟩
  have := walkWeight_nonneg es2 (fun e he => h e (hw2.1 e he))
  linarith

/-- A node predicate closed under the graph's edges holds along any walk. -/
theorem walk_closed {g : Graph V} {P : V → Prop}
    (hstep : ∀ e ∈ g.edges, P e.1 → P e.2.1) :
    ∀ (es : List (V × V × ℚ)) (u x : V), P u → IsWalk g u x es → P x := by
  intro es
  induction es with
  | nil =>
    intro u x hu hw
    exact hw.2 ▸ hu
  | cons e rest ih =>
    intro u x hu hw
    have he : e ∈ g.edges := hw.1 e (List.mem_cons_self e rest)
    have h1 : P e.2.1 := hstep e he (by rw [hw.2.1]; exact hu)
    exact ih e.2.1 x h1 ⟨fun y hy => hw.1 y (List.mem_cons_of_mem e hy), hw.2.2⟩

/-- Once the check passes, a further relaxation round changes nothing. -/
theorem relaxRound_stable {g : Graph V} {s : BFState V}
    (h : improveCheck g s = false) : relaxRound g s = s := by
  unfold relaxRound
  have hgen : ∀ l : List (V × V × ℚ), (∀ e ∈ l, e ∈ g.edges) →
      l.foldl relaxEdge s = s := by
    intro l
    induction l with
    | nil => intro _; rfl
    | cons e es ih =>
      intro hl
      have hfalse := List.any_eq_false.mp h e (hl e (List.mem_cons_self e es))
      have hid : relaxEdge s e = s := relaxEdge_not_fired (Bool.of_not_eq_true hfalse)
      rw [List.foldl_cons, hid]
      exact ih (fun x hx => hl x (List.mem_cons_of_mem e hx))
  exact hgen g.edges (fun _ hx => hx)

/-! ### Concrete graphs used as witnesses (built by the loader model) -/

/-- Spec example 4: `A→B(-1), B→C(-1), A→C(5)` with `A,B,C` as `0,1,2`. -/
def gEx : Graph ℕ := read_graph_from_excel [(0, 1, -1), (1, 2, -1), (0, 2, 5)]

/-- Spec example 2: `A→B(1), B→C(-2), C→B(-2)`; the cycle `B→C→B` sums to `-4`. -/
def gNeg : Graph ℕ := read_graph_from_excel [(0, 1, 1), (1, 2, -2), (2, 1, -2)]

/-- `A→B(1)` plus a negative self loop at the node `2`, unreachable from `0`. -/
def gC3 : Graph ℕ := read_graph_from_excel [(0, 1, 1), (2, 2, -1)]

/-- A single edge `0→1(1)`; used with the absent source `5`. -/
def gC4 : Graph ℕ := read_graph_from_excel [(0, 1, 1)]

/-- `0→1(5), 2→1(1)`: the node `2` has no incoming path from `0`. -/
def gC5 : Graph ℕ := read_graph_from_excel [(0, 1, 5), (2, 1, 1)]

/-- Spec example 1: `A→B(4), A→C(1), C→B(1)`. -/
def gC8 : Graph ℕ := read_graph_from_excel [(0, 1, 4), (0, 2, 1), (2, 1, 1)]

theorem gC3_edges : gC3.edges = [(0, 1, 1), (2, 2, -1)] := by
  with_unfolding_all rfl

/-- In `gC3` the negative cycle at node `2` is not reachable from node `0`. -/
theorem gC3_noneg : ¬ HasNegCycleFrom gC3 0 := by
  rintro ⟨x, es1, es2, hw1, hw2, hne, hneg⟩
  have hx : x = 0 ∨ x = 1 := by
    refine walk_closed (P := fun y => y = 0 ∨ y = 1) ?_ es1 0 x (Or.inl rfl) hw1
    intro e he
    rw [gC3_edges] at he
    rcases List.mem_cons.mp he with rfl | he2
    · intro _; exact Or.inr rfl
    · rw [List.mem_singleton.mp he2]
      rintro (h | h) <;> omega
  cases es2 with
  | nil => exact hne rfl
  | cons e rest =>
    have he : e ∈ gC3.edges := hw2.1 e (List.mem_cons_self e rest)
    rw [gC3_edges] at he
    have he1 : e.1 = x := hw2.2.1
    rcases List.mem_cons.mp he with rfl | he2
    · -- the first edge is 0→1, so x = 0 and the rest walks from 1 back to 0
      have hx0 : x = 0 := he1.symm
      have hwrest : IsWalk gC3 1 x rest :=
        ⟨fun y hy => hw2.1 y (List.mem_cons_of_mem _ hy), hw2.2.2⟩
      have hx1 : x = 1 := by
        refine walk_closed (P := fun y => y = 1) ?_ rest 1 x rfl hwrest
        intro f hf
        rw [gC3_edges] at hf
        rcases List.mem_cons.mp hf with rfl | hf2
        · intro h; omega
        · rw [List.mem_singleton.mp hf2]
          intro h; omega
      omega
    · -- the first edge is the self loop at 2, impossible from x ∈ {0,1}
      rw [List.mem_singleton.mp he2] at he1
      rcases hx with h | h <;> omega

/-- In `gC5` the node `2` is unreachable from `0`. -/
theorem gC5_unreachable : ¬ ∃ es, IsWalk gC5 0 2 es := by
  rintro ⟨es, hw⟩
  have h2 : (2 : ℕ) = 0 ∨ (2 : ℕ) = 1 := by
    refine walk_closed (P := fun y => y = 0 ∨ y = 1) ?_ es 0 2 (Or.inl rfl) hw
    intro e he
    have hedges : gC5.edges = [(0, 1, 5), (2, 1, 1)] := by with_unfolding_all rfl
    rw [hedges] at he
    rcases List.mem_cons.mp he with rfl | he2
    · intro _; exact Or.inr rfl
    · rw [List.mem_singleton.mp he2]
      intro _; exact Or.inr rfl
  omega

/-! ### The claims -/

/-- C1: whenever `bellman_ford` returns, the distance it assigns to any
node `n` is the minimum total edge weight over all paths from the source to
`n`: it bounds every walk's weight from below, it is finite whenever some
walk reaches `n`, and any finite value it takes is the exact weight of an
actual walk from the source to `n`. -/
theorem C1_shortest_distances {g : Graph V} {source : V}
    {d : V → Option ℚ} {p : V → Option (List V)}
    (hok : bellman_ford g source = Except.ok (d, p)) (n : V) :
    (∀ es, IsWalk g source n es → dLe (d n) (some (walkWeight es))) ∧
      (∀ es, IsWalk g source n es → ∃ c, d n = some c) ∧
      (∀ c, d n = some c → ∃ es, IsWalk g source n es ∧ walkWeight es = c) := by
  obtain ⟨hchk, hd, _⟩ := bellman_ford_ok_inv hok
  subst hd
  refine ⟨fun es hw => runRelax_dist_le_walk hchk hw, fun es hw => ?_,
    fun c hc => runRelax_exactWalks g source n c hc⟩
  obtain ⟨a, ha, _⟩ := dLe_some_dest (runRelax_dist_le_walk hchk hw)
  exact ⟨a, ha⟩

/-- Witness for C1 at spec example 4: the distance of `C` is `-2`, attained
via `A→B→C` and below the direct edge of weight 5. -/
theorem C1_witness :
    ∃ d p, bellman_ford gEx 0 = Except.ok (d, p) ∧ d 2 = some (-2) ∧
      dLe (d 2) (some (walkWeight [((0 : ℕ), (1 : ℕ), (-1 : ℚ)), (1, 2, -1)])) ∧
      (∃ c, d 2 = some c) ∧ (∃ es, IsWalk gEx 0 2 es ∧ walkWeight es = -2) := by
  have hok : bellman_ford gEx 0 = Except.ok ((runRelax gEx 0).dist, bfPaths gEx 0) :=
    bellman_ford_eq_ok (by with_unfolding_all decide)
  have h := C1_shortest_distances hok 2
  refine ⟨(runRelax gEx 0).dist, bfPaths gEx 0, hok, by with_unfolding_all decide,
    h.1 _ (by with_unfolding_all decide), h.2.1 [(0, 1, -1), (1, 2, -1)]
      (by with_unfolding_all decide), h.2.2 (-2) (by with_unfolding_all decide)⟩

/-- C2: with a negative-weight cycle reachable from the source, the extra
verification pass after the `|V| - 1` rounds detects it and `bellman_ford`
raises the negative-cycle error, returning no distances and no paths. -/
theorem C2_negative_cycle_error {g : Graph V} {source : V} (hwf : WF g)
    (hneg : HasNegCycleFrom g source) :
    bellman_ford g source = Except.error "Graph contains a negative weight cycle!" ∧
      ∀ r, bellman_ford g source ≠ Except.ok r := by
  have herr : bellman_ford g source =
      Except.error "Graph contains a negative weight cycle!" := by
    unfold bellman_ford
    rw [check_fires hwf hneg]
    rfl
  refine ⟨herr, fun r hcon => ?_⟩
  rw [herr] at hcon
  cases hcon

/-- Witness for C2 at spec example 2: the cycle `B→C→B` of weight `-4` is
reachable from `A`. -/
theorem C2_witness :
    WF gNeg ∧ HasNegCycleFrom gNeg 0 ∧
      bellman_ford gNeg 0 = Except.error "Graph contains a negative weight cycle!" := by
  have hwf : WF gNeg := by with_unfolding_all decide
  have hneg : HasNegCycleFrom gNeg 0 :=
    ⟨1, [(0, 1, 1)], [(1, 2, -2), (2, 1, -2)], by with_unfolding_all decide,
      by with_unfolding_all decide, by with_unfolding_all decide,
      by with_unfolding_all decide⟩
  exact ⟨hwf, hneg, (C2_negative_cycle_error hwf hneg).1⟩

/-- C3: a negative cycle that is not reachable from the chosen source does
not make the query fail: `bellman_ford` completes normally and returns
distances and paths. -/
theorem C3_unreachable_cycle_ok {g : Graph V} {source : V} (hwf : WF g)
    (hsrc : source ∈ g.nodes) (hcyc : HasNegCycle g)
    (hnoneg : ¬ HasNegCycleFrom g source) :
    ∃ d p, bellman_ford g source = Except.ok (d, p) :=
  ⟨_, _, bellman_ford_eq_ok (check_passes hwf hsrc hnoneg)⟩

/-- Witness for C3: a graph with a negative self loop at a node the source
cannot reach still answers the query from that source. -/
theorem C3_witness : ∃ d p, bellman_ford gC3 0 = Except.ok (d, p) :=
  C3_unreachable_cycle_ok (by with_unfolding_all decide) (by with_unfolding_all decide)
    ⟨2, [(2, 2, -1)], by with_unfolding_all decide, by with_unfolding_all decide,
      by with_unfolding_all decide⟩
    gC3_noneg

/-- Counterexample to C4: with the source `5` absent from the node set,
`bellman_ford` does not raise any error — the dict write
`distances[source] = 0` silently inserts the missing key and the call
returns a result. -/
theorem C4_counterexample :
    (5 : ℕ) ∉ gC4.nodes ∧ ∃ r, bellman_ford gC4 5 = Except.ok r :=
  ⟨by with_unfolding_all decide, _, bellman_ford_eq_ok (by with_unfolding_all decide)⟩

/-- C4 as amended: for a source outside the node set, `bellman_ford` raises
nothing; it completes and returns a distances map in which the spurious
source key carries 0 and every graph node stays at infinity, plus an empty
paths map. -/
theorem C4_amended {g : Graph V} {source : V} (hwf : WF g) (hsrc : source ∉ g.nodes) :
    ∃ d p, bellman_ford g source = Except.ok (d, p) ∧ d source = some 0 ∧
      (∀ n ∈ g.nodes, d n = none) ∧ (∀ n, p n = none) := by
  have hchk := improveCheck_invalid_source hwf hsrc
  refine ⟨_, _, bellman_ford_eq_ok hchk, ?_, ?_, ?_⟩
  · rw [runRelax_invalid_source hwf hsrc]
    simp [initState]
  · intro n hn
    rw [runRelax_invalid_source hwf hsrc]
    have hne : n ≠ source := fun h => hsrc (h ▸ hn)
    simp [initState, hne]
  · intro n
    unfold bfPaths
    by_cases hn : n ∈ g.nodes
    · rw [runRelax_invalid_source hwf hsrc, if_neg]
      rintro ⟨-, hcon⟩
      have hne : n ≠ source := fun h => hsrc (h ▸ hn)
      exact hcon (by simp [initState, hne])
    · rw [if_neg]
      rintro ⟨hcon, -⟩
      exact hn hcon

/-- Witness for the amended C4 at the concrete graph `0→1(1)` and source 5. -/
theorem C4_witness :
    ∃ d p, bellman_ford gC4 5 = Except.ok (d, p) ∧ d 5 = some 0 ∧
      (∀ n ∈ gC4.nodes, d n = none) ∧ (∀ n, p n = none) :=
  C4_amended (by with_unfolding_all decide) (by with_unfolding_all decide)

/-- C5: on a successful query, a node with no path from the source has an
infinite entry in the distances map and is absent from the paths map. -/
theorem C5_unreachable_node {g : Graph V} {source : V}
    {d : V → Option ℚ} {p : V → Option (List V)}
    (hok : bellman_ford g source = Except.ok (d, p)) {n : V}
    (hunreach : ¬ ∃ es, IsWalk g source n es) :
    d n = none ∧ p n = none := by
  obtain ⟨hchk, hd, hp⟩ := bellman_ford_ok_inv hok
  subst hd
  subst hp
  have hdist : (runRelax g source).dist n = none := by
    rcases hval : (runRelax g source).dist n with _ | c
    · rfl
    · obtain ⟨es, hw, _⟩ := runRelax_exactWalks g source n c hval
      exact absurd ⟨es, hw⟩ hunreach
  refine ⟨hdist, ?_⟩
  unfold bfPaths
  rw [if_neg (fun hcon => hcon.2 hdist)]

/-- Witness for C5: in `gC5` the node `2` has no path from `0`; its
distance is infinite and it is missing from the paths map. -/
theorem C5_witness :
    ∃ d p, bellman_ford gC5 0 = Except.ok (d, p) ∧ d 2 = none ∧ p 2 = none := by
  have hok : bellman_ford gC5 0 = Except.ok ((runRelax gC5 0).dist, bfPaths gC5 0) :=
    bellman_ford_eq_ok (by with_unfolding_all decide)
  obtain ⟨h1, h2⟩ := C5_unreachable_node hok gC5_unreachable
  exact ⟨_, _, hok, h1, h2⟩

/-- C6: on a successful query with the source in the node set, the source's
distance is 0 and its path is the one-element sequence `[source]`. -/
theorem C6_source_entries {g : Graph V} {source : V}
    {d : V → Option ℚ} {p : V → Option (List V)}
    (hsrc : source ∈ g.nodes) (hok : bellman_ford g source = Except.ok (d, p)) :
    d source = some 0 ∧ p source = some [source] := by
  obtain ⟨hchk, hd, hp⟩ := bellman_ford_ok_inv hok
  subst hd
  subst hp
  refine ⟨runRelax_src_dist hchk, ?_⟩
  unfold bfPaths
  rw [if_pos ⟨hsrc, by rw [runRelax_src_dist hchk]; simp⟩]
  have hstep : walk (runRelax g source).pred (g.nodes.length + 1) (some source) [] =
      walk (runRelax g source).pred g.nodes.length
        ((runRelax g source).pred source) [source] := rfl
  rw [hstep, runRelax_src_pred hchk, walk_none_eq]

/-- Witness for C6 at spec example 4 from source `A`. -/
theorem C6_witness :
    ∃ d p, bellman_ford gEx 0 = Except.ok (d, p) ∧ d 0 = some 0 ∧ p 0 = some [0] := by
  have hok : bellman_ford gEx 0 = Except.ok ((runRelax gEx 0).dist, bfPaths gEx 0) :=
    bellman_ford_eq_ok (by with_unfolding_all decide)
  obtain ⟨h1, h2⟩ := C6_source_entries (by with_unfolding_all decide) hok
  exact ⟨_, _, hok, h1, h2⟩

/-- C7: every path in the returned paths map starts at the source, ends at
its destination, and steps only along edges present in the graph. -/
theorem C7_paths_valid {g : Graph V} {source : V}
    {d : V → Option ℚ} {p : V → Option (List V)}
    (hok : bellman_ford g source = Except.ok (d, p)) {n : V} {res : List V}
    (hres : p n = some res) :
    res.head? = some source ∧ res.getLast? = some n ∧
      List.Chain' (fun a b => ∃ w, (a, b, w) ∈ g.edges) res := by
  obtain ⟨hchk, _, hp⟩ := bellman_ford_ok_inv hok
  subst hp
  unfold bfPaths at hres
  by_cases hcond : n ∈ g.nodes ∧ (runRelax g source).dist n ≠ none
  swap
  · rw [if_neg hcond] at hres
    cases hres
  rw [if_pos hcond] at hres
  obtain ⟨pre, hres_eq, hpl⟩ := walk_eq_some _ _ _ _ hres
  rw [List.append_nil] at hres_eq
  subst hres_eq
  have hlast : res.getLast? = some n := PredList_getLast hpl
  obtain ⟨pre1, hpre1, _⟩ := (PredList_inv hpl).2 n rfl
  have hpre_ne : res ≠ [] := by rw [hpre1]; simp
  obtain ⟨r, rest, hcons⟩ := List.exists_cons_of_ne_nil hpre_ne
  have hroot : (runRelax g source).pred r = none := PredList_head hpl r rest hcons
  have hpi := runRelax_predInv g source
  have hrfin : (runRelax g source).dist r ≠ none := by
    cases rest with
    | nil =>
      rw [hcons] at hlast
      simp only [List.getLast?_singleton, Option.some.injEq] at hlast
      rw [hlast]
      exact hcond.2
    | cons b rest2 =>
      have hchain := PredList_chain hpl
      rw [hcons] at hchain
      have hrel : (runRelax g source).pred b = some r := (List.chain'_cons.mp hchain).1
      obtain ⟨w, a, bb, _, hda, _, _⟩ := hpi b r hrel
      rw [hda]
      simp
  have hrsrc : r = source := runRelax_rootInv g source r hrfin hroot
  refine ⟨by rw [hcons, hrsrc]; rfl, hlast, ?_⟩
  refine (PredList_chain hpl).imp ?_
  intro a b hab
  obtain ⟨w, _, _, hew, _, _, _⟩ := hpi b a hab
  exact ⟨w, hew⟩

/-- Witness for C7 at spec example 4: the returned path for `C` is
`[A, B, C]`, starting at the source, ending at `C`, along real edges. -/
theorem C7_witness :
    ∃ d p, bellman_ford gEx 0 = Except.ok (d, p) ∧ p 2 = some [0, 1, 2] ∧
      [0, 1, 2].head? = some 0 ∧ [0, 1, 2].getLast? = some 2 ∧
      List.Chain' (fun a b => ∃ w, (a, b, w) ∈ gEx.edges) [0, 1, 2] := by
  have hok : bellman_ford gEx 0 = Except.ok ((runRelax gEx 0).dist, bfPaths gEx 0) :=
    bellman_ford_eq_ok (by with_unfolding_all decide)
  have hres : bfPaths gEx 0 2 = some [0, 1, 2] := by with_unfolding_all decide
  obtain ⟨h1, h2, h3⟩ := C7_paths_valid hok hres
  exact ⟨_, _, hok, hres, h1, h2, h3⟩

/-- C8: with no negative cycle reachable from the source, after exactly
`|V| - 1` relaxation rounds the verification pass finds no improving edge,
and a further relaxation round leaves the state unchanged. -/
theorem C8_stabilized {g : Graph V} {source : V} (hwf : WF g)
    (hsrc : source ∈ g.nodes) (hnoneg : ¬ HasNegCycleFrom g source) :
    improveCheck g (runRelax g source) = false ∧
      relaxRound g (runRelax g source) = runRelax g source := by
  have h := check_passes hwf hsrc hnoneg
  exact ⟨h, relaxRound_stable h⟩

/-- Witness for C8 at spec example 1 (all weights nonnegative, so no
negative cycle is reachable). -/
theorem C8_witness :
    improveCheck gC8 (runRelax gC8 0) = false ∧
      relaxRound gC8 (runRelax gC8 0) = runRelax gC8 0 :=
  C8_stabilized (by with_unfolding_all decide) (by with_unfolding_all decide)
    (no_neg_cycle_of_nonneg (by with_unfolding_all decide) 0)

/-- Counterexample to C9: feeding the loader two rows for the pair `(0,1)`
with weights 2 then 5 keeps the *last* weight, so the computed distance of
node 1 is 5 — not the 2 that the minimum-weight graph would give. -/
theorem C9_counterexample :
    ∃ d p d1 p1,
      bellman_ford (read_graph_from_excel [((0 : ℕ), 1, (2 : ℚ)), (0, 1, 5)]) 0 =
        Except.ok (d, p) ∧
      bellman_ford (read_graph_from_excel [((0 : ℕ), 1, (2 : ℚ))]) 0 =
        Except.ok (d1, p1) ∧
      d 1 = some 5 ∧ d1 1 = some 2 ∧ d 1 ≠ d1 1 := by
  refine ⟨_, _, _, _, bellman_ford_eq_ok (by with_unfolding_all decide),
    bellman_ford_eq_ok (by with_unfolding_all decide), ?_, ?_, ?_⟩ <;>
    with_unfolding_all decide

/-- C9 as amended: for duplicate rows between the same ordered pair, the
loader keeps only the most recent row's weight (`DiGraph.add_edge`
overwrites): the weight the built graph stores for every ordered pair is
the weight of the last row for that pair, so the engine computes distances
of the last-kept-weight graph, not of the minimum-weight one. -/
theorem C9_amended (rows : List (V × V × ℚ)) (u v : V) :
    edgeWeight (read_graph_from_excel rows) u v = lastWeight rows u v :=
  read_graph_last_wins rows u v

/-- C10: whenever the negative-cycle check passes, the predecessor-walk
loop terminates for every graph node: iterating the predecessor map reaches
`None` within `|V|` steps, and the walk returns a path instead of running
forever. -/
theorem C10_pred_walk_terminates {g : Graph V} {source : V}
    {d : V → Option ℚ} {p : V → Option (List V)}
    (hwf : WF g) (hok : bellman_ford g source = Except.ok (d, p)) {n : V}
    (hn : n ∈ g.nodes) :
    (∃ k, k ≤ g.nodes.length ∧ predIter (runRelax g source).pred k (some n) = none) ∧
      ∃ res, walk (runRelax g source).pred (g.nodes.length + 1) (some n) [] = some res := by
  obtain ⟨hchk, -, -⟩ := bellman_ford_ok_inv hok
  obtain ⟨k, hk, hnone⟩ := pred_iter_terminates hwf hchk hn
  exact ⟨⟨k, hk, hnone⟩, walk_succeeds (g.nodes.length + 1) k (some n) [] (by omega) hnone⟩

/-- Witness for C10 at spec example 4, node `C`. -/
theorem C10_witness :
    (∃ k, k ≤ gEx.nodes.length ∧ predIter (runRelax gEx 0).pred k (some 2) = none) ∧
      ∃ res, walk (runRelax gEx 0).pred (gEx.nodes.length + 1) (some 2) [] = some res := by
  have hok : bellman_ford gEx 0 = Except.ok ((runRelax gEx 0).dist, bfPaths gEx 0) :=
    bellman_ford_eq_ok (by with_unfolding_all decide)
  exact C10_pred_walk_terminates (by with_unfolding_all decide) hok
    (by with_unfolding_all decide)

end Belman
